import Mathlib

/-!
# Verification of the graft dependency-graph executor

A shallow embedding of the core runtime of the `graft` library
(`engine.go`, `builder.go`, `cache.go`, `graft.go`): the node catalog,
the transitive-dependency resolver (`resolveSubgraph`), the level-based
topological scheduler (`topoSortLevels`), and the concurrent per-level
execution engine (`run` / `runLevel`) together with the in-memory cache
(`MemoryCache`).

Go maps `map[ID]node` are embedded as lists of nodes with distinct ids;
result and cache maps (`map[ID]any`) as association lists over a value
type `α` (Go stores type-erased `any` values).  Node payload functions
`func(ctx) (any, error)` become pure functions from the result snapshot
carried by the context to `Except String α`.  The concurrency of
`runLevel` (one goroutine per node, a mutex-guarded results map, a
buffered error channel) is embedded as a small-step system over explicit
task states driven by an arbitrary interleaving schedule; the engine
theorems quantify over all schedules.
-/

namespace Graft

/-- Node identifiers (`type ID string` in `graft.go`). -/
abbrev ID := String

/-- Association-list lookup for the embedded Go maps (`map[ID]any`).
Returns the value stored at `k`, if any. -/
def rlook {α : Type} (m : List (ID × α)) (k : ID) : Option α :=
  match m with
  | [] => none
  | (k', v) :: rest => if k' = k then some v else rlook rest k

/-- Remove every binding for `k`. -/
def rerase {α : Type} : List (ID × α) → ID → List (ID × α)
  | [], _ => []
  | (k', v) :: rest, k => if k' = k then rerase rest k else (k', v) :: rerase rest k

/-- Association-list update, the embedding of Go map assignment
`m[k] = v`: the binding for `k` is replaced, all others kept. -/
def rset {α : Type} (m : List (ID × α)) (k : ID) (v : α) : List (ID × α) :=
  (k, v) :: rerase m k

@[simp] theorem rlook_nil {α : Type} (k : ID) : rlook ([] : List (ID × α)) k = none := rfl

@[simp] theorem rlook_cons {α : Type} (k' : ID) (v : α) (m : List (ID × α)) (k : ID) :
    rlook ((k', v) :: m) k = if k' = k then some v else rlook m k := rfl

/-- A type-erased node (`type node struct` in `graft.go`): identifier,
ordered dependency list, payload function and cacheable flag.  The
payload function receives the result snapshot that `withResults` places
in its context and returns a value or an error message. -/
structure GNode (α : Type) where
  id : ID
  dependsOn : List ID
  run : List (ID × α) → Except String α
  cacheable : Bool

/-- The ids of a node list (the key set of the Go `map[ID]node`). -/
def idsOf {α : Type} (nodes : List (GNode α)) : List ID :=
  nodes.map GNode.id

/-- Node lookup by id (`registry[id]` / `e.nodes[nodeID]`). -/
def findNode {α : Type} (nodes : List (GNode α)) (id : ID) : Option (GNode α) :=
  nodes.find? (fun n => n.id = id)

/-- The errors the embedded runtime can produce, mirroring the
`fmt.Errorf` sites of `engine.go`.  `fuelEx` is an artifact of the
embedding (recursion fuel for loops whose termination Go gets for free);
the development proves it never occurs. -/
inductive GErr where
  | unknownNode (id : ID)
  | unknownDep (nodeId missing : ID)
  | cycle
  | nodeErr (id : ID) (msg : String)
  | cancelled
  | fuelEx
deriving DecidableEq, Repr

/-! ## The resolver (`resolveSubgraph` in `engine.go` / `Builder.BuildFor` in `builder.go`)

The Go code runs a recursive closure `resolve` that memoizes already
visited identifiers in the accumulating `needed` map.  Go needs no
termination argument; the embedding uses recursion fuel, and
`resolveAux_no_fuelEx` below proves that `registry.length + 1` units of
fuel always suffice, so the `fuelEx` branch is dead code. -/
mutual

/-- One call of the Go closure `resolve(id)`: if `id` is already in
`needed` return; if `id` is not in the registry fail with
`unknown node: id`; otherwise add the node and resolve its
dependencies in order. -/
def resolveAux {α : Type} (registry : List (GNode α)) : Nat → ID → List (GNode α) → Except GErr (List (GNode α))
  | 0, _, _ => .error .fuelEx
  | fuel + 1, id, needed =>
    if (findNode needed id).isSome then .ok needed
    else
      match findNode registry id with
      | none => .error (.unknownNode id)
      | some n => resolveDeps registry fuel n.dependsOn (needed ++ [n])

/-- The `for _, dep := range n.dependsOn` loop of `resolve`. -/
def resolveDeps {α : Type} (registry : List (GNode α)) : Nat → List ID → List (GNode α) → Except GErr (List (GNode α))
  | _, [], needed => .ok needed
  | fuel, d :: rest, needed =>
    match resolveAux registry fuel d needed with
    | .error e => .error e
    | .ok needed' => resolveDeps registry fuel rest needed'

end

/-- The `for _, id := range targets` loop of `resolveSubgraph`. -/
def resolveTargets {α : Type} (registry : List (GNode α)) : List ID → List (GNode α) → Except GErr (List (GNode α))
  | [], needed => .ok needed
  | t :: rest, needed =>
    match resolveAux registry (registry.length + 1) t needed with
    | .error e => .error e
    | .ok needed' => resolveTargets registry rest needed'

/-- `resolveSubgraph(registry, targets)`: extracts the target nodes and
their transitive dependencies from a registry. -/
def resolveSubgraph {α : Type} (registry : List (GNode α)) (targets : List ID) : Except GErr (List (GNode α)) :=
  resolveTargets registry targets []

/-! ### Reachability over the registry's `dependsOn` edges -/
/-- One dependency edge: the node registered as `x` lists `y` in its
`dependsOn`. -/
def depEdge {α : Type} (registry : List (GNode α)) (x y : ID) : Prop :=
  ∃ n, n ∈ registry ∧ n.id = x ∧ y ∈ n.dependsOn

/-- `Reaches registry x y`: `y` is `x` itself or a transitive dependency
of `x`. -/
def Reaches {α : Type} (registry : List (GNode α)) : ID → ID → Prop :=
  Relation.ReflTransGen (depEdge registry)

/-- `y` is reachable from some target. -/
def ReachesFrom {α : Type} (registry : List (GNode α)) (targets : List ID) (y : ID) : Prop :=
  ∃ t ∈ targets, Reaches registry t y

/-- The fuel measure for the resolver: how many registry entries are not
yet in `needed`. -/
def freeCount {α : Type} (registry needed : List (GNode α)) : Nat :=
  (registry.filter (fun n => (findNode needed n.id).isNone)).length

/-! ## The scheduler (`topoSortLevels` in `engine.go`)

Kahn's algorithm: in-degree per node, seed with in-degree-zero nodes,
peel level by level.  The Go in-degree and dependents maps (`map[ID]int`
with a zero default, `map[ID][]ID` with an empty default) are embedded as
total functions; the unbounded `for len(currentLevel) > 0` loop gets
recursion fuel `nodes.length + 1`, proved sufficient below. -/
/-- The dependency list of the node registered under `x` (empty when no
such node exists, matching the Go zero value). -/
def depsOfId {α : Type} (nodes : List (GNode α)) (x : ID) : List ID :=
  match findNode nodes x with
  | some n => n.dependsOn
  | none => []

/-- The first `(node, missing dependency)` pair found when scanning the
node list, mirroring the check
`if _, exists := e.nodes[dep]; !exists { return error }`. -/
def firstMissingDep {α : Type} (all : List (GNode α)) : List (GNode α) → Option (ID × ID)
  | [] => none
  | n :: rest =>
    match n.dependsOn.find? (fun d => decide (d ∉ idsOf all)) with
    | some d => some (n.id, d)
    | none => firstMissingDep all rest

/-- The dependents map: `dependentsOf nodes d` lists `n.id` once per
occurrence of `d` in `n.dependsOn`, for every node `n`
(`dependents[dep] = append(dependents[dep], n.id)`). -/
def dependentsOf {α : Type} (nodes : List (GNode α)) (d : ID) : List ID :=
  nodes.flatMap (fun n => (n.dependsOn.filter (fun d' => d' = d)).map (fun _ => n.id))

/-- One decrement `inDegree[dependent]--` followed by the
`inDegree[dependent] == 0` check that pushes onto the next level. -/
def decStep (st : (ID → Int) × List ID) (d : ID) : (ID → Int) × List ID :=
  let v := st.1 d - 1
  let f := Function.update st.1 d v
  if v = 0 then (f, st.2 ++ [d]) else (f, st.2)

/-- The body of one `for len(currentLevel) > 0` iteration: decrement the
in-degree of every dependent of every node of the current level,
collecting the identifiers whose in-degree reaches zero. -/
def peelRound (dependents : ID → List ID) (inDeg : ID → Int) (current : List ID) :
    (ID → Int) × List ID :=
  current.foldl (fun st id => (dependents id).foldl decStep st) (inDeg, [])

/-- The peeling loop.  Returns the levels and the processed count; `none`
(fuel exhaustion) is proved unreachable. -/
def peelAux (dependents : ID → List ID) :
    Nat → (ID → Int) → List ID → List (List ID) → Nat → Option (List (List ID) × Nat)
  | fuel, inDeg, current, levels, processed =>
    if current.isEmpty then some (levels, processed)
    else
      match fuel with
      | 0 => none
      | fuel + 1 =>
        let st := peelRound dependents inDeg current
        peelAux dependents fuel st.1 st.2 (levels ++ [current]) (processed + current.length)

/-- `topoSortLevels`: groups nodes into execution levels using Kahn's
algorithm, failing with `unknown dependency` or `cycle` errors. -/
def topoSortLevels {α : Type} (nodes : List (GNode α)) : Except GErr (List (List ID)) :=
  match firstMissingDep nodes nodes with
  | some (nid, d) => .error (.unknownDep nid d)
  | none =>
    let inDeg : ID → Int := fun id => ((depsOfId nodes id).length : Int)
    let current := (nodes.filter (fun n => n.dependsOn.isEmpty)).map GNode.id
    match peelAux (dependentsOf nodes) (nodes.length + 1) inDeg current [] 0 with
    | none => .error .fuelEx
    | some (levels, processed) =>
      if processed = nodes.length then .ok levels else .error .cycle

/-- The dependency-ordering property of a level sequence: every
dependency of a node sits in a strictly earlier level. -/
def LevelsOrdered {α : Type} (nodes : List (GNode α)) (levels : List (List ID)) : Prop :=
  ∀ i, ∀ hi : i < levels.length, ∀ x ∈ levels.get ⟨i, hi⟩, ∀ d ∈ depsOfId nodes x,
    ∃ j, ∃ hj : j < levels.length, j < i ∧ d ∈ levels.get ⟨j, hj⟩

/-- What the peeling loop guarantees about its final levels. -/
def PeelPost {α : Type} (nodes : List (GNode α)) (levels' : List (List ID))
    (processed' : Nat) : Prop :=
  (levels'.join).Nodup
  ∧ (∀ x ∈ levels'.join, x ∈ idsOf nodes)
  ∧ processed' = (levels'.join).length
  ∧ LevelsOrdered nodes levels'
  ∧ (∀ x ∈ idsOf nodes, x ∉ levels'.join → ∃ d ∈ depsOfId nodes x, d ∉ levels'.join)

/-! ## The execution engine (`engine` / `run` / `runLevel` in `engine.go`)

`runLevel` launches one goroutine per node of the level.  Each goroutine
is a short program whose interactions with shared state (the mutex-guarded
results map, the internally synchronized `MemoryCache`, the buffered
error channel) happen in three atomic phases:

1. the cache check (`cache.Get`, and on a hit the locked commit of the
   cached value to the results map),
2. the snapshot (`mu.RLock; copyResults; mu.RUnlock`),
3. the completion (the node function's outcome on the snapshot it took --
   a pure function in the embedding -- followed on success by `cache.Set`
   plus the locked results commit, or on failure by the error-channel
   send).

A run of the level is an arbitrary interleaving of these phases, chosen
by a schedule (a list of node ids, each occurrence advancing that node's
task one phase).  After the schedule, every task is driven to completion
(`wg.Wait()` guarantees all goroutines finish); since the theorems
quantify over all schedules, every interleaving of the phases is
covered.  `errCh` is modelled by the list of errors in send order; after
`wg.Wait`, `runLevel` returns the first error sent, if any. -/
/-- Run options relevant to caching: whether a cache is configured
(`cfg.cache != nil`) and the bypass set (`ignoreCacheFor`). -/
structure EngCfg where
  hasCache : Bool
  ignoreCacheFor : List ID

/-- The shared mutable state: the engine's results map and the backing
`MemoryCache` store (`MemoryCache.Get`/`Set` never fail). -/
structure EngSt (α : Type) where
  results : List (ID × α)
  cache : List (ID × α)

/-- `useCache := e.cache != nil && n.cacheable && !e.ignoreCacheFor[nodeID]`. -/
def useCacheFor {α : Type} (cfg : EngCfg) (n : GNode α) : Bool :=
  cfg.hasCache && n.cacheable && !(cfg.ignoreCacheFor.contains n.id)

/-- Control state of one `runLevel` goroutine. -/
inductive TaskSt (α : Type) where
  | start
  | ready
  | snapped (snap : List (ID × α))
  | done

/-- The invocation log: one entry per call of a node's payload function,
recording the snapshot it received. -/
abbrev InvLog (α : Type) := List (ID × List (ID × α))

/-- One atomic phase of the goroutine for node `n`
(the body of the `go func(nodeID ID)` closure in `runLevel`). -/
def taskStep {α : Type} (cfg : EngCfg) (n : GNode α) :
    TaskSt α → EngSt α → List GErr → InvLog α →
    TaskSt α × EngSt α × List GErr × InvLog α
  | .start, st, errs, log =>
    if useCacheFor cfg n then
      match rlook st.cache n.id with
      | some v =>
        -- cache hit: record the cached value and skip execution
        (.done, { st with results := rset st.results n.id v }, errs, log)
      | none => (.ready, st, errs, log)
    else (.ready, st, errs, log)
  | .ready, st, errs, log =>
    -- build the context with the current results snapshot
    (.snapped st.results, st, errs, log)
  | .snapped snap, st, errs, log =>
    match n.run snap with
    | .error msg => (.done, st, errs ++ [.nodeErr n.id msg], log ++ [(n.id, snap)])
    | .ok out =>
      -- write to cache for cacheable nodes, then store the result
      let st1 := if useCacheFor cfg n then { st with cache := rset st.cache n.id out } else st
      (.done, { st1 with results := rset st1.results n.id out }, errs, log ++ [(n.id, snap)])
  | .done, st, errs, log => (.done, st, errs, log)

/-- The evolving state of a level run. -/
structure LevelAcc (α : Type) where
  tasks : List (ID × TaskSt α)
  st : EngSt α
  errs : List GErr
  log : InvLog α

/-- Advance the task of node `sid` by one phase (a no-op for unknown
ids or completed tasks). -/
def stepTask {α : Type} (cfg : EngCfg) (nodes : List (GNode α)) (sid : ID)
    (acc : LevelAcc α) : LevelAcc α :=
  match rlook acc.tasks sid, findNode nodes sid with
  | some ts, some n =>
    let r := taskStep cfg n ts acc.st acc.errs acc.log
    ⟨rset acc.tasks sid r.1, r.2.1, r.2.2.1, r.2.2.2⟩
  | _, _ => acc

/-- Execute one level under a schedule: interleave phases as the
schedule dictates, then drive every task to completion (`wg.Wait`). -/
def runLevelSched {α : Type} (cfg : EngCfg) (nodes : List (GNode α)) (level : List ID)
    (sched : List ID) (st : EngSt α) : LevelAcc α :=
  (sched ++ level.flatMap (fun id => [id, id, id])).foldl
    (fun acc sid => stepTask cfg nodes sid acc)
    ⟨level.map (fun id => (id, TaskSt.start)), st, [], []⟩

/-- The per-level loop of `run`: check cancellation at the top of each
level, run the level, stop at the first failing level (returning the
first error sent on `errCh`). -/
def runLevels {α : Type} (cfg : EngCfg) (nodes : List (GNode α)) (cancelled : Nat → Bool)
    (scheds : Nat → List ID) :
    List (List ID) → Nat → EngSt α → InvLog α → Except GErr Unit × EngSt α × InvLog α
  | [], _, st, log => (.ok (), st, log)
  | level :: rest, i, st, log =>
    if cancelled i then (.error .cancelled, st, log)
    else
      let acc := runLevelSched cfg nodes level (scheds i) st
      match acc.errs.head? with
      | some e => (.error e, acc.st, log ++ acc.log)
      | none => runLevels cfg nodes cancelled scheds rest (i + 1) acc.st (log ++ acc.log)

/-- A whole engine run (`newEngine` + `engine.run`): fresh results map,
the caller-provided cache contents, levels from `topoSortLevels`.
`cancelled i` tells whether the ambient context is cancelled when the
engine reaches the check at the top of level `i`; `scheds i` is the
interleaving of level `i`'s goroutine phases.  Returns the outcome, the
final engine/cache state and the invocation log. -/
def runSched {α : Type} (cfg : EngCfg) (nodes : List (GNode α)) (cancelled : Nat → Bool)
    (scheds : Nat → List ID) (cache0 : List (ID × α)) :
    Except GErr Unit × EngSt α × InvLog α :=
  match topoSortLevels nodes with
  | .error e => (.error e, ⟨[], cache0⟩, [])
  | .ok levels => runLevels cfg nodes cancelled scheds levels 0 ⟨[], cache0⟩ []

/-! ### The level invariant -/
/-- What a task's snapshot may contain: at least every result committed
before the level began, and nothing beyond those plus the level's own
nodes. -/
def snapBound {α : Type} (st0 : EngSt α) (level : List ID) (snap : List (ID × α)) : Prop :=
  (∀ k v, rlook st0.results k = some v → rlook snap k = some v)
  ∧ (∀ k, (rlook snap k).isSome → (rlook st0.results k).isSome ∨ k ∈ level)

/-- The log entries of one node. -/
def logFor {α : Type} (log : InvLog α) (id : ID) : InvLog α :=
  log.filter (fun p => p.1 = id)

/-- Per-task invariant, relating the task's control state to the shared
state, given the state `st0` at the start of the level. -/
def TaskOk {α : Type} (cfg : EngCfg) (st0 : EngSt α) (level : List ID) (n : GNode α) :
    TaskSt α → EngSt α → List GErr → InvLog α → Prop
  | .start, st, _, log =>
      rlook st.results n.id = none ∧ rlook st.cache n.id = rlook st0.cache n.id
      ∧ logFor log n.id = []
  | .ready, st, _, log =>
      (useCacheFor cfg n = true → rlook st0.cache n.id = none)
      ∧ rlook st.results n.id = none ∧ rlook st.cache n.id = rlook st0.cache n.id
      ∧ logFor log n.id = []
  | .snapped snap, st, _, log =>
      (useCacheFor cfg n = true → rlook st0.cache n.id = none)
      ∧ snapBound st0 level snap
      ∧ rlook st.results n.id = none ∧ rlook st.cache n.id = rlook st0.cache n.id
      ∧ logFor log n.id = []
  | .done, st, errs, log =>
      (∃ v, useCacheFor cfg n = true ∧ rlook st0.cache n.id = some v
        ∧ rlook st.results n.id = some v ∧ rlook st.cache n.id = some v
        ∧ logFor log n.id = [])
      ∨ (∃ snap out, snapBound st0 level snap ∧ n.run snap = .ok out
        ∧ logFor log n.id = [(n.id, snap)]
        ∧ rlook st.results n.id = some out
        ∧ ((useCacheFor cfg n = true ∧ rlook st0.cache n.id = none
              ∧ rlook st.cache n.id = some out)
           ∨ (useCacheFor cfg n = false ∧ rlook st.cache n.id = rlook st0.cache n.id)))
      ∨ (∃ snap msg, snapBound st0 level snap ∧ n.run snap = .error msg
        ∧ logFor log n.id = [(n.id, snap)]
        ∧ GErr.nodeErr n.id msg ∈ errs
        ∧ rlook st.results n.id = none
        ∧ rlook st.cache n.id = rlook st0.cache n.id
        ∧ (useCacheFor cfg n = true → rlook st0.cache n.id = none))

/-- The global invariant of a level run in progress. -/
def LevelInv {α : Type} (cfg : EngCfg) (nodes : List (GNode α)) (st0 : EngSt α)
    (level : List ID) (acc : LevelAcc α) : Prop :=
  (∀ id ∈ level, ∃ ts n, rlook acc.tasks id = some ts ∧ findNode nodes id = some n
      ∧ TaskOk cfg st0 level n ts acc.st acc.errs acc.log)
  ∧ (∀ id ts, rlook acc.tasks id = some ts → id ∈ level)
  ∧ (∀ k, k ∉ level →
      rlook acc.st.results k = rlook st0.results k ∧ rlook acc.st.cache k = rlook st0.cache k)
  ∧ (∀ k v, rlook st0.results k = some v → rlook acc.st.results k = some v)
  ∧ (∀ k, (rlook acc.st.results k).isSome → (rlook st0.results k).isSome ∨ k ∈ level)
  ∧ (∀ e ∈ acc.errs, ∃ id msg, id ∈ level ∧ e = .nodeErr id msg
      ∧ ∃ n, findNode nodes id = some n
      ∧ ∃ snap, snapBound st0 level snap ∧ n.run snap = .error msg ∧ (id, snap) ∈ acc.log)
  ∧ (∀ p ∈ acc.log, p.1 ∈ level)

/-- Summary of a completed level run: every task finished, and the
shared state reflects each task's outcome. -/
structure LevelPost {α : Type} (cfg : EngCfg) (nodes : List (GNode α)) (st0 : EngSt α)
    (level : List ID) (acc : LevelAcc α) : Prop where
  outcome : ∀ id ∈ level, ∃ n, findNode nodes id = some n
    ∧ TaskOk cfg st0 level n TaskSt.done acc.st acc.errs acc.log
  frame : ∀ k, k ∉ level →
    rlook acc.st.results k = rlook st0.results k ∧ rlook acc.st.cache k = rlook st0.cache k
  mono : ∀ k v, rlook st0.results k = some v → rlook acc.st.results k = some v
  dom : ∀ k, (rlook acc.st.results k).isSome → (rlook st0.results k).isSome ∨ k ∈ level
  errShape : ∀ e ∈ acc.errs, ∃ id msg, id ∈ level ∧ e = .nodeErr id msg
    ∧ ∃ n, findNode nodes id = some n
    ∧ ∃ snap, snapBound st0 level snap ∧ n.run snap = .error msg ∧ (id, snap) ∈ acc.log
  logLevel : ∀ p ∈ acc.log, p.1 ∈ level
  logOnce : ∀ id, (logFor acc.log id).length ≤ 1

/-- What one run of a list of levels guarantees, relative to the state
`st` it starts from; `tail` is the portion of the invocation log the run
appends. -/
structure RunLevelsOut {α : Type} (cfg : EngCfg) (nodes : List (GNode α))
    (cancelled : Nat → Bool) (rem : List (List ID)) (i : Nat) (st : EngSt α)
    (res : Except GErr Unit) (st' : EngSt α) (tail : InvLog α) : Prop where
  logIds : ∀ p ∈ tail, p.1 ∈ rem.join
  logOnce : ∀ id, (logFor tail id).length ≤ 1
  invOut : ∀ p ∈ tail, ∃ n, findNode nodes p.1 = some n
    ∧ ((∃ out, n.run p.2 = .ok out ∧ rlook st'.results p.1 = some out
        ∧ (useCacheFor cfg n = true → rlook st'.cache p.1 = some out)
        ∧ (useCacheFor cfg n = false → rlook st'.cache p.1 = rlook st.cache p.1))
      ∨ (∃ msg, n.run p.2 = .error msg
          ∧ (∃ g m', res = .error (.nodeErr g m')
              ∧ ∃ q ng, q ∈ tail ∧ q.1 = g ∧ findNode nodes g = some ng
                ∧ ng.run q.2 = .error m')
          ∧ rlook st'.results p.1 = none ∧ rlook st'.cache p.1 = rlook st.cache p.1))
  missExec : res = .ok () → ∀ id ∈ rem.join, ∀ n, findNode nodes id = some n →
    useCacheFor cfg n = true → rlook st.cache id = none →
    ∃ snap out, (id, snap) ∈ tail ∧ n.run snap = .ok out
      ∧ rlook st'.results id = some out ∧ rlook st'.cache id = some out
  hitSkip : ∀ id ∈ rem.join, ∀ n, findNode nodes id = some n → useCacheFor cfg n = true →
    ∀ v, rlook st.cache id = some v → logFor tail id = []
      ∧ (res = .ok () → rlook st'.results id = some v ∧ rlook st'.cache id = some v)
  okComplete : res = .ok () → (∀ id ∈ rem.join, ∃ v, rlook st'.results id = some v)
    ∧ (∀ j, j < rem.length → cancelled (i + j) = false)
  frame : ∀ k, k ∉ rem.join →
    rlook st'.results k = rlook st.results k ∧ rlook st'.cache k = rlook st.cache k
  mono : ∀ k v, rlook st.results k = some v → rlook st'.results k = some v
  dom : ∀ k, (rlook st'.results k).isSome → (rlook st.results k).isSome ∨ k ∈ rem.join
  errAt : ∀ e, res = .error e → ∃ j, j ≤ rem.length
    ∧ (∀ m, ∀ hm : m < rem.length, m < j → ∀ id ∈ rem.get ⟨m, hm⟩,
        ∃ v, rlook st'.results id = some v)
    ∧ ((e = .cancelled ∧ j < rem.length ∧ cancelled (i + j) = true
          ∧ ∀ p ∈ tail, p.1 ∈ (rem.take j).join)
       ∨ (∃ hj : j < rem.length, ∃ g m', e = .nodeErr g m' ∧ g ∈ rem.get ⟨j, hj⟩
          ∧ (∃ snap n, (g, snap) ∈ tail ∧ findNode nodes g = some n ∧ n.run snap = .error m')
          ∧ ∀ p ∈ tail, p.1 ∈ (rem.take (j + 1)).join))
  cancelBound : (∀ a, cancelled a = true → cancelled (a + 1) = true) →
    ∀ j, cancelled (i + j) = true → ∀ p ∈ tail, p.1 ∈ (rem.take j).join

/-! ## Concrete fixtures used by witnesses and counterexamples -/
/-- A concrete node with a constant payload, for witnesses. -/
def wnode (i : ID) (ds : List ID) (v : Nat) : GNode Nat :=
  ⟨i, ds, fun _ => .ok v, false⟩

/-- The spec's diamond catalog extended with an independent node `e`
(`d` depends on `b` and `c`, both depend on `a`). -/
def diamondCatalog : List (GNode Nat) :=
  [wnode "a" [] 1, wnode "b" ["a"] 2, wnode "c" ["a"] 3, wnode "d" ["b", "c"] 4,
   wnode "e" [] 5]

/-- The spec's diamond node set without `e`. -/
def diamondNodes : List (GNode Nat) :=
  [wnode "a" [] 1, wnode "b" ["a"] 2, wnode "c" ["a"] 3, wnode "d" ["b", "c"] 4]

/-- A cacheable node whose payload produces `2`; the warm cache below
holds the stale value `1` for it. -/
def counterNode : GNode Nat := ⟨"counter", [], fun _ => .ok 2, true⟩

/-- A run of `counterNode` with a configured cache holding
`counter ↦ 1` and with `counter` in the bypass set. -/
def bypassRun : Except GErr Unit × EngSt Nat × InvLog Nat :=
  runSched ⟨true, ["counter"]⟩ [counterNode] (fun _ => false) (fun _ => []) [("counter", 1)]

/-- A node whose payload always fails, depending on `a`. -/
def failNode : GNode Nat := ⟨"f", ["a"], fun _ => .error "boom", false⟩

/-- A run in which level 0 (node `a`) succeeds and level 1 (node `f`)
fails. -/
def failRun : Except GErr Unit × EngSt Nat × InvLog Nat :=
  runSched ⟨false, []⟩ [wnode "a" [] 7, failNode] (fun _ => false) (fun _ => []) []

/-- A node committing the value `7` under identifier `a`. -/
def snapA : GNode Nat := ⟨"a", [], fun _ => .ok 7, false⟩

/-- A node that reads its sibling `a`'s committed result out of its own
snapshot (defaulting to `0`). -/
def snapB : GNode Nat := ⟨"b", [], fun snap => .ok ((rlook snap "a").getD 0), false⟩

theorem rlook_rerase {α : Type} (m : List (ID × α)) {k k' : ID} (h : k ≠ k') :
    rlook (rerase m k) k' = rlook m k' := by
  induction m with
  | nil => rfl
  | cons p rest ih =>
    obtain ⟨pk, pv⟩ := p
    unfold rerase
    by_cases hp : pk = k
    · rw [if_pos hp, ih, rlook_cons, if_neg (fun hc => h (hp ▸ hc))]
    · rw [if_neg hp, rlook_cons, rlook_cons, ih]

theorem rlook_rset {α : Type} (m : List (ID × α)) (k k' : ID) (v : α) :
    rlook (rset m k v) k' = if k = k' then some v else rlook m k' := by
  unfold rset
  by_cases h : k = k'
  · simp [h]
  · simp only [rlook_cons, if_neg h]
    exact rlook_rerase m h

@[simp] theorem rlook_rset_self {α : Type} (m : List (ID × α)) (k : ID) (v : α) :
    rlook (rset m k v) k = some v := by simp [rlook_rset]

theorem rlook_rset_ne {α : Type} (m : List (ID × α)) {k k' : ID} (h : k ≠ k') (v : α) :
    rlook (rset m k v) k' = rlook m k' := by simp [rlook_rset, h]

/-! ### Generic lemmas about `findNode` and the fuel measure -/
theorem findNode_append {α : Type} (a b : List (GNode α)) (id : ID) :
    findNode (a ++ b) id = ((findNode a id).orElse (fun _ => findNode b id)) := by
  induction a with
  | nil => simp [findNode]
  | cons n rest ih =>
    by_cases h : n.id = id
    · simp [findNode, List.find?_cons, h]
    · simpa [findNode, List.find?_cons, h] using ih

theorem findNode_isSome_append {α : Type} {a : List (GNode α)} (b : List (GNode α)) {id : ID}
    (h : (findNode a id).isSome) : (findNode (a ++ b) id).isSome := by
  rw [findNode_append]
  cases ha : findNode a id with
  | none => rw [ha] at h; simp at h
  | some n => simp [Option.orElse, ha]

theorem findNode_eq_some {α : Type} {nodes : List (GNode α)} {id : ID} {n : GNode α}
    (h : findNode nodes id = some n) : n ∈ nodes ∧ n.id = id := by
  unfold findNode at h
  exact ⟨List.mem_of_find?_eq_some h, by simpa using List.find?_some h⟩

theorem findNode_isSome_iff {α : Type} (nodes : List (GNode α)) (id : ID) :
    (findNode nodes id).isSome ↔ id ∈ idsOf nodes := by
  constructor
  · intro h
    obtain ⟨n, hn⟩ := Option.isSome_iff_exists.mp h
    obtain ⟨hmem, hid⟩ := findNode_eq_some hn
    exact hid ▸ List.mem_map_of_mem GNode.id hmem
  · intro h
    obtain ⟨n, hn, hid⟩ := List.mem_map.mp h
    unfold findNode
    cases hf : nodes.find? (fun m => m.id = id) with
    | none =>
      have := List.find?_eq_none.mp hf n hn
      simp [hid] at this
    | some m => simp

/-- Filter-length monotonicity restricted to members. -/
theorem length_filter_le_mono {β : Type} (p q : β → Bool) (l : List β)
    (himp : ∀ x ∈ l, q x = true → p x = true) :
    (l.filter q).length ≤ (l.filter p).length := by
  induction l with
  | nil => simp
  | cons a rest ih =>
    have hr := ih (fun x hx => himp x (List.mem_cons_of_mem a hx))
    rw [List.filter_cons, List.filter_cons]
    cases hqa : q a with
    | true =>
      rw [himp a (List.mem_cons_self a rest) hqa]
      simpa using Nat.succ_le_succ hr
    | false =>
      cases hpa : p a with
      | true => simpa using Nat.le_succ_of_le hr
      | false => simpa using hr

/-- Strict filter-length decrease: if `q` implies `p` pointwise on `l`
and some element of `l` satisfies `p` but not `q`, then filtering by `q`
gives a strictly shorter list. -/
theorem length_filter_lt_of_mem {β : Type} (p q : β → Bool) (l : List β)
    (himp : ∀ x ∈ l, q x = true → p x = true)
    (x0 : β) (hx0 : x0 ∈ l) (hp : p x0 = true) (hq : q x0 = false) :
    (l.filter q).length < (l.filter p).length := by
  induction l with
  | nil => cases hx0
  | cons a rest ih =>
    rcases List.mem_cons.mp hx0 with h | h
    · rw [List.filter_cons, List.filter_cons, ← h, hp, hq]
      simp only [if_pos rfl]
      have hle : (rest.filter q).length ≤ (rest.filter p).length :=
        length_filter_le_mono p q rest (fun x hx => himp x (List.mem_cons_of_mem a hx))
      simpa using Nat.lt_succ_of_le hle
    · have hrec := ih (fun x hx hq' => himp x (List.mem_cons_of_mem a hx) hq') h
      rw [List.filter_cons, List.filter_cons]
      cases hqa : q a with
      | true =>
        rw [himp a (List.mem_cons_self a rest) hqa]
        simpa using Nat.succ_lt_succ hrec
      | false =>
        cases hpa : p a with
        | true => simpa using Nat.lt_succ_of_lt hrec
        | false => simpa using hrec

theorem freeCount_le_length {α : Type} (registry needed : List (GNode α)) :
    freeCount registry needed ≤ registry.length :=
  List.length_filter_le _ _

theorem freeCount_append_le {α : Type} (registry needed t : List (GNode α)) :
    freeCount registry (needed ++ t) ≤ freeCount registry needed := by
  apply length_filter_le_mono
  intro n _ h
  simp only [Option.isNone_iff_eq_none] at *
  cases hf : findNode needed n.id with
  | none => rfl
  | some m =>
    have := @findNode_isSome_append _ needed t n.id (by simp [hf])
    rw [h] at this
    simp at this

theorem freeCount_insert_lt {α : Type} {registry needed : List (GNode α)} {n0 : GNode α}
    (hmem : n0 ∈ registry) (hnew : findNode needed n0.id = none) :
    freeCount registry (needed ++ [n0]) < freeCount registry needed := by
  have hsome : (findNode (needed ++ [n0]) n0.id).isSome := by
    rw [findNode_append, hnew]
    simp [Option.orElse, findNode]
  apply length_filter_lt_of_mem _ _ _ _ n0 hmem
  · simp [Option.isNone_iff_eq_none, hnew]
  · simp only [Option.isNone_eq_false_iff]
    exact hsome
  · intro x _ hq
    simp only [Option.isNone_iff_eq_none] at *
    cases hf : findNode needed x.id with
    | none => rfl
    | some m =>
      have := @findNode_isSome_append _ needed [n0] x.id (by simp [hf])
      rw [hq] at this
      simp at this

/-! ### Invariants of the resolver -/
theorem resolve_mono {α : Type} (registry : List (GNode α)) : ∀ fuel : Nat,
    (∀ (id : ID) (needed r : List (GNode α)),
      resolveAux registry fuel id needed = .ok r → ∃ t, r = needed ++ t)
    ∧ (∀ (deps : List ID) (needed r : List (GNode α)),
      resolveDeps registry fuel deps needed = .ok r → ∃ t, r = needed ++ t) := by
  intro fuel
  induction fuel with
  | zero =>
    constructor
    · intro id needed r h
      simp [resolveAux] at h
    · intro deps
      induction deps with
      | nil =>
        intro needed r h
        simp only [resolveDeps] at h
        exact ⟨[], by cases h; simp⟩
      | cons d rest ihd =>
        intro needed r h
        simp [resolveDeps, resolveAux] at h
  | succ fuel ih =>
    have haux : ∀ (id : ID) (needed r : List (GNode α)),
        resolveAux registry (fuel + 1) id needed = .ok r → ∃ t, r = needed ++ t := by
      intro id needed r h
      simp only [resolveAux] at h
      by_cases hin : (findNode needed id).isSome
      · rw [if_pos hin] at h
        exact ⟨[], by cases h; simp⟩
      · rw [if_neg hin] at h
        cases hreg : findNode registry id with
        | none => rw [hreg] at h; cases h
        | some n =>
          rw [hreg] at h
          obtain ⟨t, ht⟩ := ih.2 n.dependsOn (needed ++ [n]) r h
          exact ⟨[n] ++ t, by simp [ht]⟩
    refine ⟨haux, ?_⟩
    intro deps
    induction deps with
    | nil =>
      intro needed r h
      simp only [resolveDeps] at h
      exact ⟨[], by cases h; simp⟩
    | cons d rest ihd =>
      intro needed r h
      simp only [resolveDeps] at h
      cases ha : resolveAux registry (fuel + 1) d needed with
      | error e => rw [ha] at h; cases h
      | ok needed' =>
        rw [ha] at h
        obtain ⟨t1, ht1⟩ := haux d needed needed' ha
        obtain ⟨t2, ht2⟩ := ihd needed' r h
        exact ⟨t1 ++ t2, by simp [ht2, ht1]⟩

theorem resolveAux_mono {α : Type} {registry : List (GNode α)} {fuel : Nat} {id : ID}
    {needed r : List (GNode α)} (h : resolveAux registry fuel id needed = .ok r) :
    ∃ t, r = needed ++ t :=
  (resolve_mono registry fuel).1 id needed r h

theorem resolveDeps_mono {α : Type} {registry : List (GNode α)} {fuel : Nat} {deps : List ID}
    {needed r : List (GNode α)} (h : resolveDeps registry fuel deps needed = .ok r) :
    ∃ t, r = needed ++ t :=
  (resolve_mono registry fuel).2 deps needed r h

theorem resolve_no_fuelEx {α : Type} (registry : List (GNode α)) : ∀ fuel : Nat,
    (∀ (id : ID) (needed : List (GNode α)), freeCount registry needed < fuel →
      resolveAux registry fuel id needed ≠ .error .fuelEx)
    ∧ (∀ (deps : List ID) (needed : List (GNode α)), freeCount registry needed < fuel →
      resolveDeps registry fuel deps needed ≠ .error .fuelEx) := by
  intro fuel
  induction fuel with
  | zero =>
    exact ⟨fun id needed h => absurd h (Nat.not_lt_zero _),
           fun deps needed h => absurd h (Nat.not_lt_zero _)⟩
  | succ fuel ih =>
    have haux : ∀ (id : ID) (needed : List (GNode α)), freeCount registry needed < fuel + 1 →
        resolveAux registry (fuel + 1) id needed ≠ .error .fuelEx := by
      intro id needed hfc h
      simp only [resolveAux] at h
      by_cases hin : (findNode needed id).isSome
      · rw [if_pos hin] at h; cases h
      · rw [if_neg hin] at h
        cases hreg : findNode registry id with
        | none => rw [hreg] at h; cases h
        | some n =>
          rw [hreg] at h
          obtain ⟨hmem, -⟩ := findNode_eq_some hreg
          have hnew : findNode needed n.id = none := by
            obtain ⟨-, hid⟩ := findNode_eq_some hreg
            rw [hid]
            exact Option.not_isSome_iff_eq_none.mp hin
          have hlt : freeCount registry (needed ++ [n]) < fuel :=
            Nat.lt_of_lt_of_le (freeCount_insert_lt hmem hnew) (Nat.lt_succ_iff.mp hfc)
          exact ih.2 n.dependsOn (needed ++ [n]) hlt h
    refine ⟨haux, ?_⟩
    intro deps
    induction deps with
    | nil =>
      intro needed hfc h
      simp only [resolveDeps] at h
      cases h
    | cons d rest ihd =>
      intro needed hfc h
      simp only [resolveDeps] at h
      cases ha : resolveAux registry (fuel + 1) d needed with
      | error e =>
        rw [ha] at h
        cases h
        exact haux d needed hfc ha
      | ok needed' =>
        rw [ha] at h
        obtain ⟨t, ht⟩ := resolveAux_mono ha
        have : freeCount registry needed' ≤ freeCount registry needed := by
          rw [ht]; exact freeCount_append_le registry needed t
        exact ihd needed' (Nat.lt_of_le_of_lt this hfc) h

theorem resolve_error_shape {α : Type} (registry : List (GNode α)) : ∀ fuel : Nat,
    (∀ (id : ID) (needed : List (GNode α)) (e : GErr),
      resolveAux registry fuel id needed = .error e →
      e = .fuelEx ∨ ∃ m, e = .unknownNode m ∧ Reaches registry id m ∧ m ∉ idsOf registry)
    ∧ (∀ (deps : List ID) (needed : List (GNode α)) (e : GErr),
      resolveDeps registry fuel deps needed = .error e →
      e = .fuelEx ∨ ∃ m, e = .unknownNode m ∧ (∃ d ∈ deps, Reaches registry d m) ∧ m ∉ idsOf registry) := by
  intro fuel
  induction fuel with
  | zero =>
    constructor
    · intro id needed e h
      simp only [resolveAux] at h
      cases h
      exact Or.inl rfl
    · intro deps
      induction deps with
      | nil =>
        intro needed e h
        simp only [resolveDeps] at h
        cases h
      | cons d rest ihd =>
        intro needed e h
        simp only [resolveDeps, resolveAux] at h
        cases h
        exact Or.inl rfl
  | succ fuel ih =>
    have haux : ∀ (id : ID) (needed : List (GNode α)) (e : GErr),
        resolveAux registry (fuel + 1) id needed = .error e →
        e = .fuelEx ∨ ∃ m, e = .unknownNode m ∧ Reaches registry id m ∧ m ∉ idsOf registry := by
      intro id needed e h
      simp only [resolveAux] at h
      by_cases hin : (findNode needed id).isSome
      · rw [if_pos hin] at h; cases h
      · rw [if_neg hin] at h
        cases hreg : findNode registry id with
        | none =>
          rw [hreg] at h
          cases h
          refine Or.inr ⟨id, rfl, Relation.ReflTransGen.refl, ?_⟩
          intro hmem
          have := (findNode_isSome_iff registry id).mpr hmem
          rw [hreg] at this
          simp at this
        | some n =>
          rw [hreg] at h
          rcases ih.2 n.dependsOn (needed ++ [n]) e h with hfe | ⟨m, hm, ⟨d, hd, hreach⟩, hnot⟩
          · exact Or.inl hfe
          · refine Or.inr ⟨m, hm, ?_, hnot⟩
            obtain ⟨hmem, hid⟩ := findNode_eq_some hreg
            exact Relation.ReflTransGen.head ⟨n, hmem, hid, hd⟩ hreach
    refine ⟨haux, ?_⟩
    intro deps
    induction deps with
    | nil =>
      intro needed e h
      simp only [resolveDeps] at h
      cases h
    | cons d rest ihd =>
      intro needed e h
      simp only [resolveDeps] at h
      cases ha : resolveAux registry (fuel + 1) d needed with
      | error e' =>
        rw [ha] at h
        cases h
        rcases haux d needed e ha with hfe | ⟨m, hm, hreach, hnot⟩
        · exact Or.inl hfe
        · exact Or.inr ⟨m, hm, ⟨d, List.mem_cons_self d rest, hreach⟩, hnot⟩
      | ok needed' =>
        rw [ha] at h
        rcases ihd needed' e h with hfe | ⟨m, hm, ⟨d', hd', hreach⟩, hnot⟩
        · exact Or.inl hfe
        · exact Or.inr ⟨m, hm, ⟨d', List.mem_cons_of_mem d hd', hreach⟩, hnot⟩

theorem resolve_sound {α : Type} (registry : List (GNode α)) : ∀ fuel : Nat,
    (∀ (id : ID) (needed r : List (GNode α)),
      resolveAux registry fuel id needed = .ok r →
      ∀ n ∈ r, n ∈ needed ∨ (n ∈ registry ∧ Reaches registry id n.id))
    ∧ (∀ (deps : List ID) (needed r : List (GNode α)),
      resolveDeps registry fuel deps needed = .ok r →
      ∀ n ∈ r, n ∈ needed ∨ (n ∈ registry ∧ ∃ d ∈ deps, Reaches registry d n.id)) := by
  intro fuel
  induction fuel with
  | zero =>
    constructor
    · intro id needed r h
      simp [resolveAux] at h
    · intro deps
      induction deps with
      | nil =>
        intro needed r h n hn
        simp only [resolveDeps] at h
        cases h
        exact Or.inl hn
      | cons d rest ihd =>
        intro needed r h
        simp [resolveDeps, resolveAux] at h
  | succ fuel ih =>
    have haux : ∀ (id : ID) (needed r : List (GNode α)),
        resolveAux registry (fuel + 1) id needed = .ok r →
        ∀ n ∈ r, n ∈ needed ∨ (n ∈ registry ∧ Reaches registry id n.id) := by
      intro id needed r h n hn
      simp only [resolveAux] at h
      by_cases hin : (findNode needed id).isSome
      · rw [if_pos hin] at h
        cases h
        exact Or.inl hn
      · rw [if_neg hin] at h
        cases hreg : findNode registry id with
        | none => rw [hreg] at h; cases h
        | some n0 =>
          rw [hreg] at h
          obtain ⟨hmem0, hid0⟩ := findNode_eq_some hreg
          rcases ih.2 n0.dependsOn (needed ++ [n0]) r h n hn with hmem | ⟨hreg', d, hd, hreach⟩
          · rcases List.mem_append.mp hmem with h1 | h1
            · exact Or.inl h1
            · have : n = n0 := by simpa using h1
              subst this
              exact Or.inr ⟨hmem0, hid0 ▸ Relation.ReflTransGen.refl⟩
          · exact Or.inr ⟨hreg', Relation.ReflTransGen.head ⟨n0, hmem0, hid0, hd⟩ hreach⟩
    refine ⟨haux, ?_⟩
    intro deps
    induction deps with
    | nil =>
      intro needed r h n hn
      simp only [resolveDeps] at h
      cases h
      exact Or.inl hn
    | cons d rest ihd =>
      intro needed r h n hn
      simp only [resolveDeps] at h
      cases ha : resolveAux registry (fuel + 1) d needed with
      | error e => rw [ha] at h; cases h
      | ok needed' =>
        rw [ha] at h
        rcases ihd needed' r h n hn with hmem | ⟨hreg', d', hd', hreach⟩
        · rcases haux d needed needed' ha n hmem with h1 | ⟨h1, h2⟩
          · exact Or.inl h1
          · exact Or.inr ⟨h1, d, List.mem_cons_self d rest, h2⟩
        · exact Or.inr ⟨hreg', d', List.mem_cons_of_mem d hd', hreach⟩

theorem idsOf_append {α : Type} (a b : List (GNode α)) : idsOf (a ++ b) = idsOf a ++ idsOf b := by
  simp [idsOf]

theorem mem_idsOf_of_prefix {α : Type} {needed r : List (GNode α)} {x : ID}
    (hpre : ∃ t, r = needed ++ t) (hx : x ∈ idsOf needed) : x ∈ idsOf r := by
  obtain ⟨t, rfl⟩ := hpre
  rw [idsOf_append]
  exact List.mem_append_left _ hx

theorem resolve_memb {α : Type} (registry : List (GNode α)) : ∀ fuel : Nat,
    (∀ (id : ID) (needed r : List (GNode α)),
      resolveAux registry fuel id needed = .ok r → id ∈ idsOf r)
    ∧ (∀ (deps : List ID) (needed r : List (GNode α)),
      resolveDeps registry fuel deps needed = .ok r → ∀ d ∈ deps, d ∈ idsOf r) := by
  intro fuel
  induction fuel with
  | zero =>
    constructor
    · intro id needed r h
      simp [resolveAux] at h
    · intro deps
      induction deps with
      | nil =>
        intro needed r h d hd
        cases hd
      | cons d rest ihd =>
        intro needed r h
        simp [resolveDeps, resolveAux] at h
  | succ fuel ih =>
    have haux : ∀ (id : ID) (needed r : List (GNode α)),
        resolveAux registry (fuel + 1) id needed = .ok r → id ∈ idsOf r := by
      intro id needed r h
      simp only [resolveAux] at h
      by_cases hin : (findNode needed id).isSome
      · rw [if_pos hin] at h
        cases h
        exact (findNode_isSome_iff needed id).mp hin
      · rw [if_neg hin] at h
        cases hreg : findNode registry id with
        | none => rw [hreg] at h; cases h
        | some n0 =>
          rw [hreg] at h
          obtain ⟨-, hid0⟩ := findNode_eq_some hreg
          apply mem_idsOf_of_prefix (resolveDeps_mono h)
          rw [idsOf_append]
          apply List.mem_append_right
          simp [idsOf, hid0]
    refine ⟨haux, ?_⟩
    intro deps
    induction deps with
    | nil =>
      intro needed r h d hd
      cases hd
    | cons d rest ihd =>
      intro needed r h d' hd'
      simp only [resolveDeps] at h
      cases ha : resolveAux registry (fuel + 1) d needed with
      | error e => rw [ha] at h; cases h
      | ok needed' =>
        rw [ha] at h
        rcases List.mem_cons.mp hd' with h1 | h1
        · have := haux d needed needed' ha
          exact h1 ▸ mem_idsOf_of_prefix (resolveDeps_mono h) this
        · exact ihd needed' r h d' h1

theorem resolve_closed {α : Type} (registry : List (GNode α)) : ∀ fuel : Nat,
    (∀ (id : ID) (needed r : List (GNode α)),
      resolveAux registry fuel id needed = .ok r →
      ∀ n ∈ r, n ∉ needed → ∀ d ∈ n.dependsOn, d ∈ idsOf r)
    ∧ (∀ (deps : List ID) (needed r : List (GNode α)),
      resolveDeps registry fuel deps needed = .ok r →
      ∀ n ∈ r, n ∉ needed → ∀ d ∈ n.dependsOn, d ∈ idsOf r) := by
  intro fuel
  induction fuel with
  | zero =>
    constructor
    · intro id needed r h
      simp [resolveAux] at h
    · intro deps
      induction deps with
      | nil =>
        intro needed r h n hn hnot d hd
        simp only [resolveDeps] at h
        cases h
        exact absurd hn hnot
      | cons d rest ihd =>
        intro needed r h
        simp [resolveDeps, resolveAux] at h
  | succ fuel ih =>
    have haux : ∀ (id : ID) (needed r : List (GNode α)),
        resolveAux registry (fuel + 1) id needed = .ok r →
        ∀ n ∈ r, n ∉ needed → ∀ d ∈ n.dependsOn, d ∈ idsOf r := by
      intro id needed r h n hn hnot d hd
      simp only [resolveAux] at h
      by_cases hin : (findNode needed id).isSome
      · rw [if_pos hin] at h
        cases h
        exact absurd hn hnot
      · rw [if_neg hin] at h
        cases hreg : findNode registry id with
        | none => rw [hreg] at h; cases h
        | some n0 =>
          rw [hreg] at h
          by_cases hn0 : n ∈ needed ++ [n0]
          · rcases List.mem_append.mp hn0 with h1 | h1
            · exact absurd h1 hnot
            · have heq : n = n0 := by simpa using h1
              subst heq
              exact (resolve_memb registry fuel).2 n.dependsOn (needed ++ [n]) r h d hd
          · exact ih.2 n0.dependsOn (needed ++ [n0]) r h n hn hn0 d hd
    refine ⟨haux, ?_⟩
    intro deps
    induction deps with
    | nil =>
      intro needed r h n hn hnot d hd
      simp only [resolveDeps] at h
      cases h
      exact absurd hn hnot
    | cons d0 rest ihd =>
      intro needed r h n hn hnot d hd
      simp only [resolveDeps] at h
      cases ha : resolveAux registry (fuel + 1) d0 needed with
      | error e => rw [ha] at h; cases h
      | ok needed' =>
        rw [ha] at h
        by_cases hn' : n ∈ needed'
        · have := haux d0 needed needed' ha n hn' hnot d hd
          exact mem_idsOf_of_prefix (resolveDeps_mono h) this
        · exact ihd needed' r h n hn hn' d hd

/-! ### Lifting the invariants to `resolveSubgraph` -/
theorem resolveTargets_mono {α : Type} {registry : List (GNode α)} : ∀ {targets : List ID}
    {needed r : List (GNode α)}, resolveTargets registry targets needed = .ok r →
    ∃ t, r = needed ++ t := by
  intro targets
  induction targets with
  | nil =>
    intro needed r h
    simp only [resolveTargets] at h
    cases h
    exact ⟨[], by simp⟩
  | cons t rest ih =>
    intro needed r h
    simp only [resolveTargets] at h
    cases ha : resolveAux registry (registry.length + 1) t needed with
    | error e => rw [ha] at h; cases h
    | ok needed' =>
      rw [ha] at h
      obtain ⟨t1, ht1⟩ := resolveAux_mono ha
      obtain ⟨t2, ht2⟩ := ih h
      exact ⟨t1 ++ t2, by simp [ht2, ht1]⟩

theorem resolveTargets_no_fuelEx {α : Type} (registry : List (GNode α)) (targets : List ID)
    (needed : List (GNode α)) : resolveTargets registry targets needed ≠ .error .fuelEx := by
  induction targets generalizing needed with
  | nil => simp [resolveTargets]
  | cons t rest ih =>
    intro h
    simp only [resolveTargets] at h
    cases ha : resolveAux registry (registry.length + 1) t needed with
    | error e =>
      rw [ha] at h
      cases h
      exact (resolve_no_fuelEx registry (registry.length + 1)).1 t needed
        (Nat.lt_succ_of_le (freeCount_le_length registry needed)) ha
    | ok needed' =>
      rw [ha] at h
      exact ih needed' h

theorem resolveTargets_error_shape {α : Type} {registry : List (GNode α)} {targets : List ID}
    {needed : List (GNode α)} {e : GErr} (h : resolveTargets registry targets needed = .error e) :
    ∃ m, e = .unknownNode m ∧ ReachesFrom registry targets m ∧ m ∉ idsOf registry := by
  induction targets generalizing needed with
  | nil => simp [resolveTargets] at h
  | cons t rest ih =>
    simp only [resolveTargets] at h
    cases ha : resolveAux registry (registry.length + 1) t needed with
    | error e' =>
      rw [ha] at h
      cases h
      rcases (resolve_error_shape registry (registry.length + 1)).1 t needed e ha with hfe | ⟨m, hm, hreach, hnot⟩
      · exact absurd (hfe ▸ ha) ((resolve_no_fuelEx registry (registry.length + 1)).1 t needed
          (Nat.lt_succ_of_le (freeCount_le_length registry needed)))
      · exact ⟨m, hm, ⟨t, List.mem_cons_self t rest, hreach⟩, hnot⟩
    | ok needed' =>
      rw [ha] at h
      obtain ⟨m, hm, ⟨t', ht', hreach⟩, hnot⟩ := ih h
      exact ⟨m, hm, ⟨t', List.mem_cons_of_mem t ht', hreach⟩, hnot⟩

theorem resolveTargets_sound {α : Type} {registry : List (GNode α)} {targets : List ID}
    {needed r : List (GNode α)} (h : resolveTargets registry targets needed = .ok r) :
    ∀ n ∈ r, n ∈ needed ∨ (n ∈ registry ∧ ReachesFrom registry targets n.id) := by
  induction targets generalizing needed with
  | nil =>
    simp only [resolveTargets] at h
    cases h
    exact fun n hn => Or.inl hn
  | cons t rest ih =>
    intro n hn
    simp only [resolveTargets] at h
    cases ha : resolveAux registry (registry.length + 1) t needed with
    | error e => rw [ha] at h; cases h
    | ok needed' =>
      rw [ha] at h
      rcases ih h n hn with hmem | ⟨hreg, t', ht', hreach⟩
      · rcases (resolve_sound registry (registry.length + 1)).1 t needed needed' ha n hmem with h1 | ⟨h1, h2⟩
        · exact Or.inl h1
        · exact Or.inr ⟨h1, t, List.mem_cons_self t rest, h2⟩
      · exact Or.inr ⟨hreg, t', List.mem_cons_of_mem t ht', hreach⟩

theorem resolveTargets_memb {α : Type} {registry : List (GNode α)} {targets : List ID}
    {needed r : List (GNode α)} (h : resolveTargets registry targets needed = .ok r) :
    ∀ t ∈ targets, t ∈ idsOf r := by
  induction targets generalizing needed with
  | nil => intro t ht; cases ht
  | cons t rest ih =>
    intro t' ht'
    simp only [resolveTargets] at h
    cases ha : resolveAux registry (registry.length + 1) t needed with
    | error e => rw [ha] at h; cases h
    | ok needed' =>
      rw [ha] at h
      rcases List.mem_cons.mp ht' with h1 | h1
      · have := (resolve_memb registry (registry.length + 1)).1 t needed needed' ha
        exact h1 ▸ mem_idsOf_of_prefix (resolveTargets_mono h) this
      · exact ih h t' h1

theorem resolveTargets_closed {α : Type} {registry : List (GNode α)} {targets : List ID}
    {needed r : List (GNode α)} (h : resolveTargets registry targets needed = .ok r) :
    ∀ n ∈ r, n ∉ needed → ∀ d ∈ n.dependsOn, d ∈ idsOf r := by
  induction targets generalizing needed with
  | nil =>
    simp only [resolveTargets] at h
    cases h
    exact fun n hn hnot _ _ => absurd hn hnot
  | cons t rest ih =>
    intro n hn hnot d hd
    simp only [resolveTargets] at h
    cases ha : resolveAux registry (registry.length + 1) t needed with
    | error e => rw [ha] at h; cases h
    | ok needed' =>
      rw [ha] at h
      by_cases hn' : n ∈ needed'
      · have := (resolve_closed registry (registry.length + 1)).1 t needed needed' ha n hn' hnot d hd
        exact mem_idsOf_of_prefix (resolveTargets_mono h) this
      · exact ih h n hn hn' d hd

/-- Reachability from a member of a dependency-closed sub-catalog stays
inside the sub-catalog (registry ids distinct). -/
theorem reach_stays_in_closed {α : Type} {registry S : List (GNode α)}
    (hN : (idsOf registry).Nodup)
    (hSreg : ∀ n ∈ S, n ∈ registry)
    (hclosed : ∀ n ∈ S, ∀ d ∈ n.dependsOn, d ∈ idsOf S)
    {t x : ID} (ht : t ∈ idsOf S) (hr : Reaches registry t x) : x ∈ idsOf S := by
  induction hr with
  | refl => exact ht
  | tail hstep hedge ihx =>
    obtain ⟨n, hnreg, hnid, hdep⟩ := hedge
    obtain ⟨m, hmS, hmid⟩ := List.mem_map.mp ihx
    have hmreg := hSreg m hmS
    have : m = n := List.inj_on_of_nodup_map hN hmreg hnreg (by rw [hmid, hnid])
    subst this
    exact hclosed m hmS _ hdep

/-- On success, the resolved subset consists of registry nodes and its id
set is exactly the set of identifiers reachable from the targets. -/
theorem resolveSubgraph_ok_char {α : Type} {registry : List (GNode α)} {targets : List ID}
    {r : List (GNode α)} (hN : (idsOf registry).Nodup)
    (h : resolveSubgraph registry targets = .ok r) :
    (∀ n ∈ r, n ∈ registry) ∧ (∀ x, x ∈ idsOf r ↔ ReachesFrom registry targets x) := by
  have hsound := @resolveTargets_sound _ registry targets [] r h
  have hsub : ∀ n ∈ r, n ∈ registry := by
    intro n hn
    rcases hsound n hn with h1 | ⟨h1, -⟩
    · cases h1
    · exact h1
  refine ⟨hsub, fun x => ⟨?_, ?_⟩⟩
  · intro hx
    obtain ⟨n, hnr, hnid⟩ := List.mem_map.mp hx
    rcases hsound n hnr with h1 | ⟨-, h1⟩
    · cases h1
    · exact hnid ▸ h1
  · rintro ⟨t, ht, hreach⟩
    exact reach_stays_in_closed hN hsub
      (fun n hn => resolveTargets_closed h n hn (by simp))
      (resolveTargets_memb h t ht) hreach

/-- The resolver never exhausts its fuel and can only fail with an
`unknown node` error. -/
theorem resolveSubgraph_total {α : Type} (registry : List (GNode α)) (targets : List ID) :
    (∃ r, resolveSubgraph registry targets = .ok r) ∨
    (∃ m, resolveSubgraph registry targets = .error (.unknownNode m)
      ∧ ReachesFrom registry targets m ∧ m ∉ idsOf registry) := by
  cases h : resolveSubgraph registry targets with
  | ok r => exact Or.inl ⟨r, rfl⟩
  | error e =>
    obtain ⟨m, hm, hreach, hnot⟩ := resolveTargets_error_shape h
    subst hm
    exact Or.inr ⟨m, rfl, hreach, hnot⟩

/-! ### Characterizing one peeling round -/
theorem peelRound_eq_foldl (dependents : ID → List ID) (inDeg : ID → Int) (current : List ID) :
    peelRound dependents inDeg current
      = (current.flatMap dependents).foldl decStep (inDeg, []) := by
  unfold peelRound
  generalize (inDeg, ([] : List ID)) = init
  induction current generalizing init with
  | nil => simp
  | cons c rest ih => simp [List.flatMap_cons, List.foldl_append, ih]

theorem decStep_eq (st : (ID → Int) × List ID) (d : ID) :
    decStep st d = (Function.update st.1 d (st.1 d - 1),
      if st.1 d - 1 = 0 then st.2 ++ [d] else st.2) := by
  unfold decStep
  by_cases hv : st.1 d - 1 = 0 <;> simp [hv]

/-- Auxiliary: rewriting `if` on propositionally equal conditions. -/
theorem ite_cond_congr {b1 b2 : Prop} [Decidable b1] [Decidable b2] (h : b1 ↔ b2) :
    (if b1 then (1 : Nat) else 0) = (if b2 then 1 else 0) := by
  simp [h]

theorem decFold_deg (occs : List ID) : ∀ (inDeg : ID → Int) (acc : List ID) (x : ID),
    ((occs.foldl decStep (inDeg, acc)).1) x = inDeg x - (occs.count x : Int) := by
  induction occs with
  | nil => intro inDeg acc x; simp
  | cons d rest ih =>
    intro inDeg acc x
    rw [List.foldl_cons, decStep_eq]
    rw [ih]
    dsimp only
    by_cases hx : x = d
    · subst hx
      rw [Function.update_same, List.count_cons_self]
      push_cast
      omega
    · rw [Function.update_noteq hx, List.count_cons_of_ne hx]

theorem decFold_next_count (occs : List ID) : ∀ (inDeg : ID → Int) (acc : List ID) (x : ID),
    ((occs.foldl decStep (inDeg, acc)).2).count x
      = acc.count x + (if 1 ≤ inDeg x ∧ inDeg x ≤ (occs.count x : Int) then 1 else 0) := by
  induction occs with
  | nil =>
    intro inDeg acc x
    have : ¬ (1 ≤ inDeg x ∧ inDeg x ≤ ((List.count x [] : Nat) : Int)) := by
      simp only [List.count_nil]
      intro ⟨h1, h2⟩
      omega
    rw [List.foldl_nil, if_neg this]
    simp
  | cons d rest ih =>
    intro inDeg acc x
    rw [List.foldl_cons, decStep_eq]
    rw [ih]
    dsimp only
    by_cases hx : x = d
    · subst hx
      rw [Function.update_same, List.count_cons_self]
      by_cases hv : inDeg x - 1 = 0
      · rw [if_pos hv, List.count_append, List.count_singleton']
        have h1 : ¬ (1 ≤ inDeg x - 1 ∧ inDeg x - 1 ≤ (rest.count x : Int)) := by
          intro ⟨ha, _⟩; omega
        have h2 : (1 ≤ inDeg x ∧ inDeg x ≤ ((rest.count x + 1 : Nat) : Int)) := by
          refine ⟨by omega, ?_⟩
          push_cast
          omega
        rw [if_neg h1, if_pos h2]
        simp
      · rw [if_neg hv]
        congr 1
        apply ite_cond_congr
        constructor
        · intro ⟨h1, h2⟩
          refine ⟨by omega, ?_⟩
          push_cast
          omega
        · intro ⟨h1, h2⟩
          push_cast at h2
          exact ⟨by omega, by omega⟩
    · rw [Function.update_noteq hx, List.count_cons_of_ne hx]
      by_cases hv : inDeg d - 1 = 0
      · rw [if_pos hv, List.count_append, List.count_singleton']
        rw [if_neg (fun h => hx h.symm)]
        ring
      · rw [if_neg hv]

theorem depsOfId_cons {α : Type} (n : GNode α) (rest : List (GNode α)) (x : ID) :
    depsOfId (n :: rest) x = if n.id = x then n.dependsOn else depsOfId rest x := by
  unfold depsOfId findNode
  rw [List.find?_cons]
  by_cases h : n.id = x <;> simp [h]

theorem mem_dependentsOf {α : Type} {nodes : List (GNode α)} {c y : ID}
    (h : y ∈ dependentsOf nodes c) : y ∈ idsOf nodes := by
  unfold dependentsOf at h
  obtain ⟨n, hn, hy⟩ := List.mem_flatMap.mp h
  obtain ⟨-, -, hid⟩ := List.mem_map.mp hy
  exact hid ▸ List.mem_map_of_mem GNode.id hn

theorem count_dependentsOf_zero {α : Type} {nodes : List (GNode α)} {x : ID}
    (h : x ∉ idsOf nodes) (c : ID) : (dependentsOf nodes c).count x = 0 := by
  rw [List.count_eq_zero]
  intro hx
  exact h (mem_dependentsOf hx)

theorem count_dependentsOf {α : Type} {nodes : List (GNode α)} (hN : (idsOf nodes).Nodup)
    (c x : ID) :
    (dependentsOf nodes c).count x = ((depsOfId nodes x).filter (fun d => d = c)).length := by
  induction nodes with
  | nil => simp [dependentsOf, depsOfId, findNode]
  | cons n rest ih =>
    have hN' : (idsOf rest).Nodup := (List.nodup_cons.mp hN).2
    unfold dependentsOf
    rw [List.flatMap_cons, List.count_append]
    have hmap : ((n.dependsOn.filter (fun d' => d' = c)).map (fun _ => n.id)).count x
        = if n.id = x then (n.dependsOn.filter (fun d' => d' = c)).length else 0 := by
      rw [List.map_const']
      rw [List.count_replicate]
      by_cases h : n.id = x
      · simp [h]
      · simp [h]
    rw [hmap, depsOfId_cons]
    by_cases h : n.id = x
    · rw [if_pos h, if_pos h]
      have hx : x ∉ idsOf rest := h ▸ (List.nodup_cons.mp hN).1
      have : (dependentsOf rest c).count x = 0 := count_dependentsOf_zero hx c
      unfold dependentsOf at this
      rw [this]
      simp
    · rw [if_neg h, if_neg h]
      have := ih hN'
      unfold dependentsOf at this
      rw [this]
      simp

theorem length_filter_mem_cons (L : List ID) (c : ID) (rest : List ID) (hc : c ∉ rest) :
    (L.filter (fun d => decide (d ∈ c :: rest))).length
      = (L.filter (fun d => d = c)).length + (L.filter (fun d => decide (d ∈ rest))).length := by
  rw [← List.countP_eq_length_filter, ← List.countP_eq_length_filter,
    ← List.countP_eq_length_filter]
  induction L with
  | nil => simp
  | cons a L ih =>
    rw [List.countP_cons, List.countP_cons, List.countP_cons]
    by_cases hac : a = c
    · have h1 : decide (a ∈ c :: rest) = true := by simp [hac]
      have h2 : decide (a = c) = true := by simp [hac]
      have h3 : decide (a ∈ rest) = false := by simp [hac ▸ hc]
      rw [h1, h2, h3]
      norm_num
      norm_num at ih
      omega
    · by_cases hmem : a ∈ rest
      · have h1 : decide (a ∈ c :: rest) = true := by simp [List.mem_cons_of_mem c hmem]
        have h2 : decide (a = c) = false := by simpa using hac
        have h3 : decide (a ∈ rest) = true := by simpa using hmem
        rw [h1, h2, h3]
        norm_num
        norm_num at ih
        omega
      · have hnc : a ∉ c :: rest := by
          intro hcc
          rcases List.mem_cons.mp hcc with h | h
          · exact hac h
          · exact hmem h
        have h1 : decide (a ∈ c :: rest) = false := by simpa using hnc
        have h2 : decide (a = c) = false := by simpa using hac
        have h3 : decide (a ∈ rest) = false := by simpa using hmem
        rw [h1, h2, h3]
        simpa using ih

/-- The total number of decrements applied to `x` during one round: one
per occurrence of a current-level node in `x`'s dependency list. -/
theorem count_round_occs {α : Type} {nodes : List (GNode α)} (hN : (idsOf nodes).Nodup) :
    ∀ (current : List ID), current.Nodup → ∀ x : ID,
    (current.flatMap (dependentsOf nodes)).count x
      = ((depsOfId nodes x).filter (fun d => decide (d ∈ current))).length := by
  intro current
  induction current with
  | nil => simp
  | cons c rest ih =>
    intro hnd x
    obtain ⟨hc, hrest⟩ := List.nodup_cons.mp hnd
    rw [List.flatMap_cons, List.count_append, count_dependentsOf hN, ih hrest x,
      length_filter_mem_cons _ c rest hc]

/-- How one peeling round transforms the in-degree map and what ends up
in the next level. -/
theorem peelRound_char {α : Type} {nodes : List (GNode α)} (hN : (idsOf nodes).Nodup)
    {current : List ID} (hcur : current.Nodup) (inDeg : ID → Int) :
    (∀ x, (peelRound (dependentsOf nodes) inDeg current).1 x
      = inDeg x - (((depsOfId nodes x).filter (fun d => decide (d ∈ current))).length : Int))
    ∧ (∀ x, ((peelRound (dependentsOf nodes) inDeg current).2).count x
      = if 1 ≤ inDeg x ∧ inDeg x ≤ (((depsOfId nodes x).filter (fun d => decide (d ∈ current))).length : Int)
        then 1 else 0) := by
  rw [peelRound_eq_foldl]
  constructor
  · intro x
    rw [decFold_deg, count_round_occs hN current hcur x]
  · intro x
    rw [decFold_next_count, count_round_occs hN current hcur x]
    simp

theorem filter_not_mem_append_split (L A current : List ID)
    (hdisj : ∀ x ∈ current, x ∉ A) :
    (L.filter (fun d => decide (d ∉ A))).length
      = (L.filter (fun d => decide (d ∉ A ++ current))).length
        + (L.filter (fun d => decide (d ∈ current))).length := by
  induction L with
  | nil => simp
  | cons a L ih =>
    rw [List.filter_cons, List.filter_cons, List.filter_cons]
    by_cases hcur : a ∈ current
    · have h1 : decide (a ∉ A) = true := by simpa using hdisj a hcur
      have h2 : decide (a ∉ A ++ current) = false := by
        simp [List.mem_append, hcur]
      have h3 : decide (a ∈ current) = true := by simpa using hcur
      rw [h1, h2, h3]
      simp only [if_pos rfl]
      norm_num
      norm_num at ih
      omega
    · have h3 : decide (a ∈ current) = false := by simpa using hcur
      rw [h3]
      by_cases hA : a ∈ A
      · have h1 : decide (a ∉ A) = false := by simpa using hA
        have h2 : decide (a ∉ A ++ current) = false := by
          simp [List.mem_append, hA]
        rw [h1, h2]
        simpa using ih
      · have h1 : decide (a ∉ A) = true := by simpa using hA
        have h2 : decide (a ∉ A ++ current) = true := by
          simp [List.mem_append, hA, hcur]
        rw [h1, h2]
        simp only [if_pos rfl]
        norm_num
        norm_num at ih
        omega

theorem depsOfId_of_not_mem {α : Type} {nodes : List (GNode α)} {x : ID}
    (h : x ∉ idsOf nodes) : depsOfId nodes x = [] := by
  unfold depsOfId
  cases hf : findNode nodes x with
  | none => rfl
  | some n =>
    have := (findNode_isSome_iff nodes x).mp (by simp [hf])
    exact absurd this h

/-- Characterization of the next level produced by one peeling round,
given the loop invariants for the state entering the round. -/
theorem nextLevel_char {α : Type} {nodes : List (GNode α)} (hN : (idsOf nodes).Nodup)
    {A current : List ID} {inDeg : ID → Int}
    (hJ1 : (A ++ current).Nodup)
    (hJ2 : ∀ x, inDeg x = (((depsOfId nodes x).filter (fun d => decide (d ∉ A))).length : Int))
    (hJ3 : ∀ x, x ∈ current ↔ (x ∈ idsOf nodes ∧ x ∉ A ∧ ∀ d ∈ depsOfId nodes x, d ∈ A))
    (hJ4 : ∀ x ∈ A, ∀ d ∈ depsOfId nodes x, d ∈ A) :
    (∀ x, x ∈ (peelRound (dependentsOf nodes) inDeg current).2 ↔
      (x ∈ idsOf nodes ∧ x ∉ A ++ current ∧ ∀ d ∈ depsOfId nodes x, d ∈ A ++ current))
    ∧ ((peelRound (dependentsOf nodes) inDeg current).2).Nodup
    ∧ (∀ x, (peelRound (dependentsOf nodes) inDeg current).1 x
      = (((depsOfId nodes x).filter (fun d => decide (d ∉ A ++ current))).length : Int)) := by
  have hcur : current.Nodup := (List.nodup_append.mp hJ1).2.1
  have hdisj : ∀ x ∈ current, x ∉ A := by
    intro x hx hA
    exact (List.nodup_append.mp hJ1).2.2 hA hx
  obtain ⟨hdeg, hcnt⟩ := peelRound_char hN hcur inDeg
  have hsplit : ∀ x, ((depsOfId nodes x).filter (fun d => decide (d ∉ A))).length
      = ((depsOfId nodes x).filter (fun d => decide (d ∉ A ++ current))).length
        + ((depsOfId nodes x).filter (fun d => decide (d ∈ current))).length :=
    fun x => filter_not_mem_append_split (depsOfId nodes x) A current hdisj
  have hcond : ∀ x, (1 ≤ inDeg x ∧ inDeg x ≤ (((depsOfId nodes x).filter (fun d => decide (d ∈ current))).length : Int))
      ↔ (x ∈ idsOf nodes ∧ x ∉ A ++ current ∧ ∀ d ∈ depsOfId nodes x, d ∈ A ++ current) := by
    intro x
    rw [hJ2 x]
    constructor
    · intro ⟨h1, h2⟩
      have hx_ids : x ∈ idsOf nodes := by
        by_contra hx
        rw [depsOfId_of_not_mem hx] at h1
        simp at h1
      have hzero : ((depsOfId nodes x).filter (fun d => decide (d ∉ A ++ current))).length = 0 := by
        have := hsplit x
        omega
      have hsubset : ∀ d ∈ depsOfId nodes x, d ∈ A ++ current := by
        intro d hd
        by_contra hdn
        have : d ∈ (depsOfId nodes x).filter (fun d => decide (d ∉ A ++ current)) :=
          List.mem_filter.mpr ⟨hd, by simpa using hdn⟩
        rw [List.eq_nil_of_length_eq_zero hzero] at this
        cases this
      have hnotsubA : ¬ ∀ d ∈ depsOfId nodes x, d ∈ A := by
        intro hall
        have : ((depsOfId nodes x).filter (fun d => decide (d ∉ A))).length = 0 := by
          rw [List.length_eq_zero, List.filter_eq_nil]
          intro d hd
          simpa using hall d hd
        omega
      refine ⟨hx_ids, ?_, hsubset⟩
      intro hxA
      rcases List.mem_append.mp hxA with h | h
      · exact hnotsubA (hJ4 x h)
      · exact hnotsubA ((hJ3 x).mp h).2.2
    · intro ⟨hx_ids, hxA, hsubset⟩
      have hnotsubA : ¬ ∀ d ∈ depsOfId nodes x, d ∈ A := by
        intro hall
        exact hxA (List.mem_append_left _ (by
          by_contra hxA'
          have hmem : x ∈ current := (hJ3 x).mpr ⟨hx_ids, hxA', hall⟩
          exact hxA (List.mem_append_right _ hmem)))
      have h1 : 1 ≤ (((depsOfId nodes x).filter (fun d => decide (d ∉ A))).length : Int) := by
        by_contra hle
        have hlen0 : ((depsOfId nodes x).filter (fun d => decide (d ∉ A))).length = 0 := by omega
        apply hnotsubA
        intro d hd
        by_contra hdn
        have hmemf : d ∈ (depsOfId nodes x).filter (fun d => decide (d ∉ A)) :=
          List.mem_filter.mpr ⟨hd, by simpa using hdn⟩
        rw [List.eq_nil_of_length_eq_zero hlen0] at hmemf
        cases hmemf
      have hzero : ((depsOfId nodes x).filter (fun d => decide (d ∉ A ++ current))).length = 0 := by
        rw [List.length_eq_zero, List.filter_eq_nil]
        intro d hd
        simp only [decide_eq_true_eq, not_not]
        exact hsubset d hd
      refine ⟨h1, ?_⟩
      have := hsplit x
      omega
  refine ⟨?_, ?_, ?_⟩
  · intro x
    rw [← hcond x]
    constructor
    · intro hx
      have := hcnt x
      by_contra hc
      rw [if_neg hc] at this
      exact absurd this (by simpa using List.count_pos_iff_mem.mpr hx |>.ne')
    · intro hc
      have := hcnt x
      rw [if_pos hc] at this
      exact List.count_pos_iff_mem.mp (by omega)
  · rw [List.nodup_iff_count_le_one]
    intro x
    rw [hcnt x]
    split_ifs <;> omega
  · intro x
    rw [hdeg x, hJ2 x]
    have := hsplit x
    push_cast
    omega

theorem peelAux_spec {α : Type} {nodes : List (GNode α)} (hN : (idsOf nodes).Nodup) :
    ∀ (fuel : Nat) (inDeg : ID → Int) (current : List ID) (levels : List (List ID)) (processed : Nat),
    (levels.join ++ current).Nodup →
    (∀ x ∈ levels.join ++ current, x ∈ idsOf nodes) →
    (∀ x, inDeg x = (((depsOfId nodes x).filter (fun d => decide (d ∉ levels.join))).length : Int)) →
    (∀ x, x ∈ current ↔ (x ∈ idsOf nodes ∧ x ∉ levels.join ∧ ∀ d ∈ depsOfId nodes x, d ∈ levels.join)) →
    (∀ x ∈ levels.join, ∀ d ∈ depsOfId nodes x, d ∈ levels.join) →
    LevelsOrdered nodes levels →
    processed = (levels.join).length →
    nodes.length < fuel + (levels.join).length →
    ∃ levels' processed',
      peelAux (dependentsOf nodes) fuel inDeg current levels processed = some (levels', processed')
      ∧ (∃ tl, levels' = levels ++ tl) ∧ PeelPost nodes levels' processed' := by
  intro fuel
  induction fuel with
  | zero =>
    intro inDeg current levels processed hJ1 hJ1b hJ2 hJ3 hJ4 hJ5 hJ6 hfuel
    cases hcur : current.isEmpty with
    | true =>
      have hce : current = [] := List.isEmpty_iff.mp hcur
      refine ⟨levels, processed, ?_, ⟨[], by simp⟩, ?_⟩
      · simp only [peelAux, hcur]
        rfl
      · subst hce
        refine ⟨by simpa using hJ1, by simpa using hJ1b, hJ6, hJ5, ?_⟩
        intro x hx hnx
        have := (hJ3 x).not.mp (by simp)
        push_neg at this
        obtain ⟨d, hd, hdn⟩ := this hx hnx
        exact ⟨d, hd, hdn⟩
    | false =>
      exfalso
      have hce : current ≠ [] := by
        intro h
        rw [h] at hcur
        simp at hcur
      have hlen : (levels.join ++ current).length ≤ nodes.length := by
        have hsub : (levels.join ++ current) ⊆ idsOf nodes := hJ1b
        have := (hJ1.subperm hsub).length_le
        simpa [idsOf] using this
      have : 1 ≤ current.length := List.length_pos.mpr hce
      rw [List.length_append] at hlen
      omega
  | succ fuel ih =>
    intro inDeg current levels processed hJ1 hJ1b hJ2 hJ3 hJ4 hJ5 hJ6 hfuel
    cases hcur : current.isEmpty with
    | true =>
      have hce : current = [] := List.isEmpty_iff.mp hcur
      refine ⟨levels, processed, ?_, ⟨[], by simp⟩, ?_⟩
      · simp only [peelAux, hcur]
        rfl
      · subst hce
        refine ⟨by simpa using hJ1, by simpa using hJ1b, hJ6, hJ5, ?_⟩
        intro x hx hnx
        have := (hJ3 x).not.mp (by simp)
        push_neg at this
        obtain ⟨d, hd, hdn⟩ := this hx hnx
        exact ⟨d, hd, hdn⟩
    | false =>
      have hce : current ≠ [] := by
        intro h
        rw [h] at hcur
        simp at hcur
      obtain ⟨hchar, hnodup, hdeg⟩ := nextLevel_char hN hJ1 hJ2 hJ3 hJ4
      have hjoin : (levels ++ [current]).join = levels.join ++ current := by
        simp
      have hres : peelAux (dependentsOf nodes) (fuel + 1) inDeg current levels processed
          = peelAux (dependentsOf nodes) fuel
              (peelRound (dependentsOf nodes) inDeg current).1
              (peelRound (dependentsOf nodes) inDeg current).2
              (levels ++ [current]) (processed + current.length) := by
        conv_lhs => rw [peelAux]
        rw [if_neg (by simp [hcur])]
      rw [hres]
      have hone : 1 ≤ current.length := List.length_pos.mpr hce
      obtain ⟨levels', processed', hrun, ⟨tl, htl⟩, hpost⟩ :=
        ih (peelRound (dependentsOf nodes) inDeg current).1
          (peelRound (dependentsOf nodes) inDeg current).2
          (levels ++ [current]) (processed + current.length)
          (by
            rw [hjoin]
            rw [List.nodup_append]
            refine ⟨hJ1, hnodup, ?_⟩
            intro a ha hnext
            exact ((hchar a).mp hnext).2.1 ha)
          (by
            rw [hjoin]
            intro x hx
            rcases List.mem_append.mp hx with h | h
            · exact hJ1b x h
            · exact ((hchar x).mp h).1)
          (by
            intro x
            rw [hjoin]
            exact hdeg x)
          (by
            intro x
            rw [hjoin]
            exact hchar x)
          (by
            rw [hjoin]
            intro x hx d hd
            rcases List.mem_append.mp hx with h | h
            · exact List.mem_append_left _ (hJ4 x h d hd)
            · exact List.mem_append_left _ (((hJ3 x).mp h).2.2 d hd))
          (by
            intro i hi x hx d hd
            rw [List.length_append, List.length_singleton] at hi
            by_cases hilt : i < levels.length
            · have hx' : x ∈ levels.get ⟨i, hilt⟩ := by
                have : (levels ++ [current]).get ⟨i, by rw [List.length_append, List.length_singleton]; omega⟩
                    = levels.get ⟨i, hilt⟩ := List.get_append i hilt
                rwa [this] at hx
              obtain ⟨j, hj, hji, hdj⟩ := hJ5 i hilt x hx' d hd
              refine ⟨j, by rw [List.length_append, List.length_singleton]; omega, hji, ?_⟩
              have : (levels ++ [current]).get ⟨j, by rw [List.length_append, List.length_singleton]; omega⟩
                  = levels.get ⟨j, hj⟩ := List.get_append j hj
              rwa [this]
            · have hieq : i = levels.length := by omega
              have hx' : x ∈ current := by
                subst hieq
                have : (levels ++ [current]).get ⟨levels.length, by simp⟩ = current := by
                  rw [List.get_append_right] <;> simp
                rwa [this] at hx
              have hdA : d ∈ levels.join := ((hJ3 x).mp hx').2.2 d hd
              obtain ⟨l, hl, hdl⟩ := List.mem_join.mp hdA
              obtain ⟨⟨j, hj⟩, hlj⟩ := List.mem_iff_get.mp hl
              refine ⟨j, by rw [List.length_append, List.length_singleton]; omega, by omega, ?_⟩
              have : (levels ++ [current]).get ⟨j, by rw [List.length_append, List.length_singleton]; omega⟩
                  = levels.get ⟨j, hj⟩ := List.get_append j hj
              rw [this, hlj]
              exact hdl)
          (by
            rw [hjoin, List.length_append, hJ6])
          (by
            rw [hjoin, List.length_append]
            omega)
      refine ⟨levels', processed', hrun, ⟨[current] ++ tl, by simpa using htl⟩, hpost⟩

/-- In a finite nonempty set where every element has an `r`-successor
inside the set, `r` has a cycle. -/
theorem exists_transGen_self {β : Type} [DecidableEq β] [Inhabited β] {r : β → β → Prop}
    {U : List β} (hne : U ≠ []) (hstep : ∀ x ∈ U, ∃ y, y ∈ U ∧ r x y) :
    ∃ z, Relation.TransGen r z z := by
  classical
  choose! g hg1 hg2 using hstep
  obtain ⟨x0, hx0⟩ : ∃ x, x ∈ U := by
    cases U with
    | nil => exact absurd rfl hne
    | cons a l => exact ⟨a, List.mem_cons_self a l⟩
  have hmem : ∀ n : Nat, g^[n] x0 ∈ U := by
    intro n
    induction n with
    | zero => exact hx0
    | succ n ihn =>
      rw [Function.iterate_succ_apply']
      exact hg1 _ ihn
  have hchain : ∀ m k : Nat, Relation.TransGen r (g^[m] x0) (g^[m + k + 1] x0) := by
    intro m k
    induction k with
    | zero =>
      rw [Function.iterate_succ_apply']
      exact Relation.TransGen.single (hg2 _ (hmem m))
    | succ k ihk =>
      have : m + (k + 1) + 1 = (m + k + 1) + 1 := by omega
      rw [this, Function.iterate_succ_apply']
      exact Relation.TransGen.tail ihk (hg2 _ (hmem (m + k + 1)))
  have hmaps : ∀ n ∈ Finset.range (U.length + 1), g^[n] x0 ∈ U.toFinset := by
    intro n _
    exact List.mem_toFinset.mpr (hmem n)
  have hcard : U.toFinset.card < (Finset.range (U.length + 1)).card := by
    rw [Finset.card_range]
    exact Nat.lt_succ_of_le (List.toFinset_card_le U)
  obtain ⟨i, hi, j, hj, hij, heq⟩ :=
    Finset.exists_ne_map_eq_of_card_lt_of_maps_to hcard hmaps
  rcases Nat.lt_or_ge i j with h | h
  · obtain ⟨k, hk⟩ : ∃ k, j = i + k + 1 := ⟨j - i - 1, by omega⟩
    refine ⟨g^[i] x0, ?_⟩
    have := hchain i k
    rw [← hk] at this
    rwa [← heq] at this
  · have hji : j < i := by
      rcases Nat.lt_or_ge j i with h' | h'
      · exact h'
      · exact absurd (Nat.le_antisymm h' h) hij
    obtain ⟨k, hk⟩ : ∃ k, i = j + k + 1 := ⟨i - j - 1, by omega⟩
    refine ⟨g^[j] x0, ?_⟩
    have := hchain j k
    rw [← hk] at this
    rwa [heq] at this

/-- With distinct ids, `findNode` recovers exactly the member node. -/
theorem findNode_of_mem {α : Type} {nodes : List (GNode α)} (hN : (idsOf nodes).Nodup)
    {n : GNode α} (hmem : n ∈ nodes) : findNode nodes n.id = some n := by
  cases hf : findNode nodes n.id with
  | none =>
    have := (findNode_isSome_iff nodes n.id).mpr (List.mem_map_of_mem GNode.id hmem)
    rw [hf] at this
    simp at this
  | some m =>
    obtain ⟨hm, hmid⟩ := findNode_eq_some hf
    have : m = n := List.inj_on_of_nodup_map hN hm hmem hmid
    rw [this]

theorem depsOfId_of_mem {α : Type} {nodes : List (GNode α)} (hN : (idsOf nodes).Nodup)
    {n : GNode α} (hmem : n ∈ nodes) : depsOfId nodes n.id = n.dependsOn := by
  unfold depsOfId
  rw [findNode_of_mem hN hmem]

/-- The dependency edge in terms of `depsOfId` (distinct ids). -/
theorem depEdge_iff {α : Type} {nodes : List (GNode α)} (hN : (idsOf nodes).Nodup) (x y : ID) :
    depEdge nodes x y ↔ (x ∈ idsOf nodes ∧ y ∈ depsOfId nodes x) := by
  constructor
  · rintro ⟨n, hn, hid, hy⟩
    subst hid
    exact ⟨List.mem_map_of_mem GNode.id hn, (depsOfId_of_mem hN hn).symm ▸ hy⟩
  · rintro ⟨hx, hy⟩
    obtain ⟨n, hn, hid⟩ := List.mem_map.mp hx
    subst hid
    exact ⟨n, hn, rfl, (depsOfId_of_mem hN hn) ▸ hy⟩

theorem firstMissingDep_eq_none {α : Type} {all : List (GNode α)} :
    ∀ {l : List (GNode α)}, (∀ n ∈ l, ∀ d ∈ n.dependsOn, d ∈ idsOf all) →
    firstMissingDep all l = none := by
  intro l
  induction l with
  | nil => intro _; rfl
  | cons n rest ih =>
    intro h
    unfold firstMissingDep
    have hfind : n.dependsOn.find? (fun d => decide (d ∉ idsOf all)) = none := by
      rw [List.find?_eq_none]
      intro d hd
      simpa using h n (List.mem_cons_self n rest) d hd
    rw [hfind]
    exact ih (fun m hm => h m (List.mem_cons_of_mem n hm))

theorem firstMissingDep_some {α : Type} {all : List (GNode α)} :
    ∀ {l : List (GNode α)} {nid d : ID}, firstMissingDep all l = some (nid, d) →
    ∃ n ∈ l, n.id = nid ∧ d ∈ n.dependsOn ∧ d ∉ idsOf all := by
  intro l
  induction l with
  | nil => intro nid d h; cases h
  | cons n rest ih =>
    intro nid d h
    unfold firstMissingDep at h
    cases hfind : n.dependsOn.find? (fun dd => decide (dd ∉ idsOf all)) with
    | some d0 =>
      rw [hfind] at h
      cases h
      refine ⟨n, List.mem_cons_self n rest, rfl, ?_, ?_⟩
      · exact List.mem_of_find?_eq_some hfind
      · simpa using List.find?_some hfind
    | none =>
      rw [hfind] at h
      obtain ⟨m, hm, hrest⟩ := ih h
      exact ⟨m, List.mem_cons_of_mem n hm, hrest⟩

theorem firstMissingDep_isSome {α : Type} {all : List (GNode α)} :
    ∀ {l : List (GNode α)} {n : GNode α} {d : ID}, n ∈ l → d ∈ n.dependsOn →
    d ∉ idsOf all → firstMissingDep all l ≠ none := by
  intro l
  induction l with
  | nil => intro n d hn; cases hn
  | cons m rest ih =>
    intro n d hn hd hnot
    unfold firstMissingDep
    cases hfind : m.dependsOn.find? (fun dd => decide (dd ∉ idsOf all)) with
    | some d0 => simp
    | none =>
      rcases List.mem_cons.mp hn with h | h
      · exfalso
        subst h
        have := List.find?_eq_none.mp hfind d hd
        simp at this
        exact hnot this
      · exact ih h hd hnot

theorem nodup_join_disjoint {β : Type} : ∀ {L : List (List β)}, L.join.Nodup →
    ∀ i j, ∀ hi : i < L.length, ∀ hj : j < L.length, i ≠ j →
    ∀ x, x ∈ L.get ⟨i, hi⟩ → x ∈ L.get ⟨j, hj⟩ → False := by
  intro L
  induction L with
  | nil => intro _ i j hi; simp at hi
  | cons l ls ih =>
    intro h i j hi hj hij x hxi hxj
    have h' : (l ++ ls.join).Nodup := by simpa using h
    obtain ⟨hl, hjoin, hdisj⟩ := List.nodup_append.mp h'
    match i, j with
    | 0, 0 => exact hij rfl
    | 0, j' + 1 =>
      have hxl : x ∈ l := hxi
      have hxj' : x ∈ ls.get ⟨j', by simpa using hj⟩ := hxj
      exact hdisj hxl (List.mem_join.mpr ⟨_, List.get_mem ls _ _, hxj'⟩)
    | i' + 1, 0 =>
      have hxl : x ∈ l := hxj
      have hxi' : x ∈ ls.get ⟨i', by simpa using hi⟩ := hxi
      exact hdisj hxl (List.mem_join.mpr ⟨_, List.get_mem ls _ _, hxi'⟩)
    | i' + 1, j' + 1 =>
      exact ih hjoin i' j' (by simpa using hi) (by simpa using hj)
        (fun hc => hij (by omega)) x hxi hxj

/-- Along a dependency chain the level index strictly decreases. -/
theorem transGen_level_lt {α : Type} {nodes : List (GNode α)} (hN : (idsOf nodes).Nodup)
    {levels : List (List ID)} (hord : LevelsOrdered nodes levels) :
    ∀ {x y : ID}, Relation.TransGen (depEdge nodes) x y →
    ∀ i, ∀ hi : i < levels.length, x ∈ levels.get ⟨i, hi⟩ →
    ∃ j, ∃ hj : j < levels.length, j < i ∧ y ∈ levels.get ⟨j, hj⟩ := by
  intro x y htg
  induction htg with
  | single hedge =>
    intro i hi hx
    obtain ⟨-, hdep⟩ := (depEdge_iff hN _ _).mp hedge
    exact hord i hi x hx _ hdep
  | tail htg hedge ihb =>
    intro i hi hx
    obtain ⟨j, hj, hji, hbj⟩ := ihb i hi hx
    obtain ⟨-, hdep⟩ := (depEdge_iff hN _ _).mp hedge
    obtain ⟨j', hj', hj'j, hyj'⟩ := hord j hj _ hbj _ hdep
    exact ⟨j', hj', by omega, hyj'⟩

/-- Master case split for the scheduler: with distinct ids and a closed
dependency set, `topoSortLevels` either succeeds with a level partition
of the nodes (and the dependency relation is acyclic), or the relation
has a cycle and a cycle error is returned. -/
theorem topoSort_cases {α : Type} {nodes : List (GNode α)} (hN : (idsOf nodes).Nodup)
    (hC : ∀ n ∈ nodes, ∀ d ∈ n.dependsOn, d ∈ idsOf nodes) :
    (∃ levels, topoSortLevels nodes = .ok levels
      ∧ (levels.join).Nodup
      ∧ (∀ x, x ∈ levels.join ↔ x ∈ idsOf nodes)
      ∧ (levels.map List.length).sum = nodes.length
      ∧ LevelsOrdered nodes levels
      ∧ (∀ z, ¬ Relation.TransGen (depEdge nodes) z z))
    ∨ (topoSortLevels nodes = .error .cycle ∧ ∃ z, Relation.TransGen (depEdge nodes) z z) := by
  have hCid : ∀ x, ∀ d ∈ depsOfId nodes x, d ∈ idsOf nodes := by
    intro x d hd
    unfold depsOfId at hd
    cases hf : findNode nodes x with
    | none => rw [hf] at hd; cases hd
    | some n =>
      rw [hf] at hd
      exact hC n (findNode_eq_some hf).1 d hd
  have hmain : ∃ levels' processed',
      peelAux (dependentsOf nodes) (nodes.length + 1)
        (fun id => ((depsOfId nodes id).length : Int))
        ((nodes.filter (fun n => n.dependsOn.isEmpty)).map GNode.id) [] 0
        = some (levels', processed')
      ∧ PeelPost nodes levels' processed' := by
    obtain ⟨levels', processed', hrun, -, hpost⟩ :=
      peelAux_spec hN (nodes.length + 1)
        (fun id => ((depsOfId nodes id).length : Int))
        ((nodes.filter (fun n => n.dependsOn.isEmpty)).map GNode.id) [] 0
        (by
          simp only [List.join_nil, List.nil_append]
          exact (hN.sublist (List.Sublist.map GNode.id (List.filter_sublist nodes)))
            )
        (by
          simp only [List.join_nil, List.nil_append]
          intro x hx
          obtain ⟨n, hn, hid⟩ := List.mem_map.mp hx
          exact hid ▸ List.mem_map_of_mem GNode.id (List.mem_of_mem_filter hn))
        (by
          intro x
          simp)
        (by
          intro x
          simp only [List.join_nil]
          constructor
          · intro hx
            obtain ⟨n, hn, hid⟩ := List.mem_map.mp hx
            obtain ⟨hn', hempty⟩ := List.mem_filter.mp hn
            subst hid
            refine ⟨List.mem_map_of_mem GNode.id hn', by simp, ?_⟩
            rw [depsOfId_of_mem hN hn']
            intro d hd
            have hnil : n.dependsOn = [] := List.isEmpty_iff.mp hempty
            rw [hnil] at hd
            cases hd
          · rintro ⟨hx, -, hdeps⟩
            obtain ⟨n, hn, hid⟩ := List.mem_map.mp hx
            subst hid
            rw [depsOfId_of_mem hN hn] at hdeps
            have : n.dependsOn = [] := by
              rw [List.eq_nil_iff_forall_not_mem]
              intro d hd
              cases hdeps d hd
            apply List.mem_map_of_mem GNode.id
            rw [List.mem_filter]
            exact ⟨hn, by simp [this]⟩)
        (by simp)
        (by
          intro i hi
          simp at hi)
        (by simp)
        (by simp)
    exact ⟨levels', processed', hrun, hpost⟩
  obtain ⟨levels', processed', hrun, hnodup, hids, hproc, hord, hterm⟩ := hmain
  have htopo : topoSortLevels nodes
      = if processed' = nodes.length then .ok levels' else .error .cycle := by
    unfold topoSortLevels
    rw [firstMissingDep_eq_none hC]
    simp only
    rw [hrun]
  by_cases hfull : processed' = nodes.length
  · left
    have hmem_iff : ∀ x, x ∈ levels'.join ↔ x ∈ idsOf nodes := by
      intro x
      constructor
      · intro hx
        exact hids x hx
      · intro hx
        have hsub : levels'.join ⊆ idsOf nodes := hids
        have hsubperm := hnodup.subperm hsub
        have hlen : (idsOf nodes).length ≤ (levels'.join).length := by
          have h1 : (idsOf nodes).length = nodes.length := by
            simp [idsOf]
          omega
        exact (hsubperm.perm_of_length_le hlen).mem_iff.mpr hx
    refine ⟨levels', by rw [htopo, if_pos hfull], hnodup, hmem_iff, ?_, hord, ?_⟩
    · rw [← List.length_join, ← hproc, hfull]
    · intro z htg
      have hz_ids : z ∈ idsOf nodes := by
        obtain ⟨b, hedge, -⟩ := Relation.TransGen.head'_iff.mp htg
        exact ((depEdge_iff hN _ _).mp hedge).1
      have hz_join : z ∈ levels'.join := (hmem_iff z).mpr hz_ids
      obtain ⟨l, hl, hzl⟩ := List.mem_join.mp hz_join
      obtain ⟨⟨i, hi⟩, hli⟩ := List.mem_iff_get.mp hl
      have hz_level : z ∈ levels'.get ⟨i, hi⟩ := by rw [hli]; exact hzl
      obtain ⟨j, hj, hji, hzj⟩ := transGen_level_lt hN hord htg i hi hz_level
      exact nodup_join_disjoint hnodup j i hj hi (by omega) z hzj hz_level
  · right
    refine ⟨by rw [htopo, if_neg hfull], ?_⟩
    have hproc_le : (levels'.join).length ≤ (idsOf nodes).length :=
      (hnodup.subperm (fun x hx => hids x hx)).length_le
    have hids_len : (idsOf nodes).length = nodes.length := by simp [idsOf]
    have hUne : (idsOf nodes).filter (fun x => decide (x ∉ levels'.join)) ≠ [] := by
      intro hU
      have hsub : idsOf nodes ⊆ levels'.join := by
        intro x hx
        by_contra hnx
        have : x ∈ (idsOf nodes).filter (fun x => decide (x ∉ levels'.join)) :=
          List.mem_filter.mpr ⟨hx, by simpa using hnx⟩
        rw [hU] at this
        cases this
      have := (hN.subperm hsub).length_le
      omega
    apply exists_transGen_self hUne
    intro x hx
    obtain ⟨hx_ids, hx_nj⟩ := List.mem_filter.mp hx
    obtain ⟨d, hd, hdn⟩ := hterm x hx_ids (by simpa using hx_nj)
    refine ⟨d, List.mem_filter.mpr ⟨hCid x d hd, by simpa using hdn⟩, ?_⟩
    exact (depEdge_iff hN _ _).mpr ⟨hx_ids, hd⟩

theorem logFor_append_ne {α : Type} (log : InvLog α) {sid id : ID} (h : sid ≠ id)
    (snap : List (ID × α)) : logFor (log ++ [(sid, snap)]) id = logFor log id := by
  unfold logFor
  rw [List.filter_append]
  have : List.filter (fun p => decide (p.1 = id)) [(sid, snap)] = [] := by
    simp [h]
  rw [this, List.append_nil]

theorem logFor_append_self {α : Type} (log : InvLog α) (id : ID) (snap : List (ID × α)) :
    logFor (log ++ [(id, snap)]) id = logFor log id ++ [(id, snap)] := by
  unfold logFor
  rw [List.filter_append]
  simp

/-- A single scheduled phase preserves the level invariant, given that
every node of the level starts the level with no committed result. -/
theorem stepTask_inv {α : Type} {cfg : EngCfg} {nodes : List (GNode α)} {st0 : EngSt α}
    {level : List ID} {acc : LevelAcc α}
    (hfresh : ∀ id ∈ level, rlook st0.results id = none)
    (hInv : LevelInv cfg nodes st0 level acc) (sid : ID) :
    LevelInv cfg nodes st0 level (stepTask cfg nodes sid acc) := by
  obtain ⟨hTasks, hKeys, hFrame, hMono, hDom, hErrs, hLog⟩ := hInv
  unfold stepTask
  cases hts : rlook acc.tasks sid with
  | none => exact ⟨hTasks, hKeys, hFrame, hMono, hDom, hErrs, hLog⟩
  | some ts =>
    cases hn : findNode nodes sid with
    | none => exact ⟨hTasks, hKeys, hFrame, hMono, hDom, hErrs, hLog⟩
    | some n =>
      simp only
      have hsid_level : sid ∈ level := hKeys sid ts hts
      have hnid : n.id = sid := (findNode_eq_some hn).2
      obtain ⟨ts0, n0, hts0, hn0, hTOk⟩ := hTasks sid hsid_level
      rw [hts] at hts0
      rw [hn] at hn0
      cases hts0
      cases hn0
      have hfr : rlook st0.results sid = none := hfresh sid hsid_level
      -- case analysis on the task phase
      cases ts with
      | done =>
        -- no-op step
        refine ⟨?_, ?_, hFrame, hMono, hDom, hErrs, hLog⟩
        · intro id hid
          obtain ⟨ts', n', h1, h2, h3⟩ := hTasks id hid
          by_cases hcase : id = sid
          · subst hcase
            exact ⟨.done, n', by simp [rlook_rset, taskStep], h2, by
              rw [hts] at h1
              cases h1
              simpa [taskStep] using h3⟩
          · exact ⟨ts', n', by simp [taskStep, rlook_rset_ne _ (fun hc => hcase hc.symm), h1], h2, by
              simpa [taskStep] using h3⟩
        · intro id ts' h
          simp only [taskStep] at h
          rw [rlook_rset] at h
          by_cases hcase : sid = id
          · exact hcase ▸ hsid_level
          · rw [if_neg hcase] at h
            exact hKeys id ts' h
      | start =>
        obtain ⟨hres, hcache, hlogf⟩ := hTOk
        by_cases huse : useCacheFor cfg n = true
        · cases hhit : rlook acc.st.cache n.id with
          | some v =>
            -- cache hit: commit cached value, task done
            have hstep : taskStep cfg n .start acc.st acc.errs acc.log
                = (.done, { acc.st with results := rset acc.st.results n.id v }, acc.errs, acc.log) := by
              simp [taskStep, huse, hhit]
            rw [hstep]
            have hv0 : rlook st0.cache n.id = some v := by rw [← hcache, hhit]
            refine ⟨?_, ?_, ?_, ?_, ?_, ?_, hLog⟩
            · intro id hid
              obtain ⟨ts', n', h1, h2, h3⟩ := hTasks id hid
              by_cases hcase : id = sid
              · subst hcase
                refine ⟨.done, n, by simp [rlook_rset], hn, ?_⟩
                rw [hts] at h1
                cases h1
                exact Or.inl ⟨v, huse, hv0, by simp [rlook_rset, hnid], hhit, hlogf⟩
              · have hne : n.id ≠ id := fun hc => hcase (hc ▸ hnid.symm ▸ rfl)
                refine ⟨ts', n', by
                  rw [rlook_rset_ne _ (fun hc => hcase hc.symm)]
                  exact h1, h2, ?_⟩
                have hne' : n.id ≠ n'.id := by
                  rw [hnid, (findNode_eq_some h2).2]
                  exact fun hc => hcase hc.symm
                cases ts' with
                | start =>
                  obtain ⟨a, b, c⟩ := h3
                  exact ⟨by rw [rlook_rset_ne _ hne']; exact a, b, c⟩
                | ready =>
                  obtain ⟨a, b, c, d⟩ := h3
                  exact ⟨a, by rw [rlook_rset_ne _ hne']; exact b, c, d⟩
                | snapped snap =>
                  obtain ⟨a, b, c, d, e⟩ := h3
                  exact ⟨a, b, by rw [rlook_rset_ne _ hne']; exact c, d, e⟩
                | done =>
                  rcases h3 with ⟨w, a, b, c, d, e⟩ | ⟨snap, out, a, b, c, d, e⟩ | ⟨snap, msg, a, b, c, d, e, f, g⟩
                  · exact Or.inl ⟨w, a, b, by rw [rlook_rset_ne _ hne']; exact c, d, e⟩
                  · exact Or.inr (Or.inl ⟨snap, out, a, b, c, by rw [rlook_rset_ne _ hne']; exact d, e⟩)
                  · exact Or.inr (Or.inr ⟨snap, msg, a, b, c, d, by rw [rlook_rset_ne _ hne']; exact e, f, g⟩)
            · intro id ts' h
              simp only at h
              rw [rlook_rset] at h
              by_cases hcase : sid = id
              · exact hcase ▸ hsid_level
              · rw [if_neg hcase] at h
                exact hKeys id ts' h
            · intro k hk
              have hkne : n.id ≠ k := fun hc => hk (hc ▸ hnid ▸ hsid_level)
              refine ⟨?_, (hFrame k hk).2⟩
              simp only
              rw [rlook_rset_ne _ hkne]
              exact (hFrame k hk).1
            · intro k v' hkv
              simp only
              by_cases hck : n.id = k
              · subst hck
                rw [hnid] at hkv
                rw [hfr] at hkv
                cases hkv
              · rw [rlook_rset_ne _ hck]
                exact hMono k v' hkv
            · intro k hk
              simp only at hk
              by_cases hck : n.id = k
              · exact Or.inr (hck ▸ hnid ▸ hsid_level)
              · rw [rlook_rset_ne _ hck] at hk
                exact hDom k hk
            · intro e he
              exact hErrs e he
          | none =>
            -- cache miss: proceed
            have hstep : taskStep cfg n .start acc.st acc.errs acc.log
                = (.ready, acc.st, acc.errs, acc.log) := by
              simp [taskStep, huse, hhit]
            rw [hstep]
            refine ⟨?_, ?_, hFrame, hMono, hDom, hErrs, hLog⟩
            · intro id hid
              obtain ⟨ts', n', h1, h2, h3⟩ := hTasks id hid
              by_cases hcase : id = sid
              · subst hcase
                refine ⟨.ready, n, by simp [rlook_rset], hn, ?_⟩
                refine ⟨fun _ => ?_, hres, hcache, hlogf⟩
                rw [← hcache, hhit]
              · exact ⟨ts', n', by rw [rlook_rset_ne _ (fun hc => hcase hc.symm)]; exact h1, h2, h3⟩
            · intro id ts' h
              simp only at h
              rw [rlook_rset] at h
              by_cases hcase : sid = id
              · exact hcase ▸ hsid_level
              · rw [if_neg hcase] at h
                exact hKeys id ts' h
        · -- no cache use: proceed
          have huse' : useCacheFor cfg n = false := by
            cases h : useCacheFor cfg n
            · rfl
            · exact absurd h huse
          have hstep : taskStep cfg n .start acc.st acc.errs acc.log
              = (.ready, acc.st, acc.errs, acc.log) := by
            simp [taskStep, huse']
          rw [hstep]
          refine ⟨?_, ?_, hFrame, hMono, hDom, hErrs, hLog⟩
          · intro id hid
            obtain ⟨ts', n', h1, h2, h3⟩ := hTasks id hid
            by_cases hcase : id = sid
            · subst hcase
              refine ⟨.ready, n, by simp [rlook_rset], hn, ?_⟩
              exact ⟨fun hu => absurd hu huse, hres, hcache, hlogf⟩
            · exact ⟨ts', n', by rw [rlook_rset_ne _ (fun hc => hcase hc.symm)]; exact h1, h2, h3⟩
          · intro id ts' h
            simp only at h
            rw [rlook_rset] at h
            by_cases hcase : sid = id
            · exact hcase ▸ hsid_level
            · rw [if_neg hcase] at h
              exact hKeys id ts' h
      | ready =>
        obtain ⟨hmiss, hres, hcache, hlogf⟩ := hTOk
        have hstep : taskStep cfg n .ready acc.st acc.errs acc.log
            = (.snapped acc.st.results, acc.st, acc.errs, acc.log) := by
          simp [taskStep]
        rw [hstep]
        refine ⟨?_, ?_, hFrame, hMono, hDom, hErrs, hLog⟩
        · intro id hid
          obtain ⟨ts', n', h1, h2, h3⟩ := hTasks id hid
          by_cases hcase : id = sid
          · subst hcase
            refine ⟨.snapped acc.st.results, n, by simp [rlook_rset], hn, ?_⟩
            exact ⟨hmiss, ⟨hMono, hDom⟩, hres, hcache, hlogf⟩
          · exact ⟨ts', n', by rw [rlook_rset_ne _ (fun hc => hcase hc.symm)]; exact h1, h2, h3⟩
        · intro id ts' h
          simp only at h
          rw [rlook_rset] at h
          by_cases hcase : sid = id
          · exact hcase ▸ hsid_level
          · rw [if_neg hcase] at h
            exact hKeys id ts' h
      | snapped snap =>
        obtain ⟨hmiss, hsnap, hres, hcache, hlogf⟩ := hTOk
        cases hrunout : n.run snap with
        | error msg =>
          have hstep : taskStep cfg n (.snapped snap) acc.st acc.errs acc.log
              = (.done, acc.st, acc.errs ++ [.nodeErr n.id msg], acc.log ++ [(n.id, snap)]) := by
            simp [taskStep, hrunout]
          rw [hstep]
          refine ⟨?_, ?_, hFrame, hMono, hDom, ?_, ?_⟩
          · intro id hid
            obtain ⟨ts', n', h1, h2, h3⟩ := hTasks id hid
            by_cases hcase : id = sid
            · subst hcase
              refine ⟨.done, n, by simp [rlook_rset], hn, ?_⟩
              refine Or.inr (Or.inr ⟨snap, msg, hsnap, hrunout, ?_, ?_, hres, hcache, hmiss⟩)
              · rw [logFor_append_self, hlogf, List.nil_append]
              · exact List.mem_append_right _ (List.mem_singleton_self _)
            · refine ⟨ts', n', by rw [rlook_rset_ne _ (fun hc => hcase hc.symm)]; exact h1, h2, ?_⟩
              have hne' : n.id ≠ n'.id := by
                rw [hnid, (findNode_eq_some h2).2]
                exact fun hc => hcase hc.symm
              have hlogeq : ∀ j, j = n'.id → logFor (acc.log ++ [(n.id, snap)]) j = logFor acc.log j := by
                intro j hj
                exact logFor_append_ne acc.log (hj ▸ hne') snap
              cases ts' with
              | start =>
                obtain ⟨a, b, c⟩ := h3
                exact ⟨a, b, by rw [hlogeq n'.id rfl]; exact c⟩
              | ready =>
                obtain ⟨a, b, c, d⟩ := h3
                exact ⟨a, b, c, by rw [hlogeq n'.id rfl]; exact d⟩
              | snapped snap' =>
                obtain ⟨a, b, c, d, e⟩ := h3
                exact ⟨a, b, c, d, by rw [hlogeq n'.id rfl]; exact e⟩
              | done =>
                rcases h3 with ⟨w, a, b, c, d, e⟩ | ⟨snap', out, a, b, c, d, e⟩ | ⟨snap', msg', a, b, c, d, e, f, g⟩
                · exact Or.inl ⟨w, a, b, c, d, by rw [hlogeq n'.id rfl]; exact e⟩
                · exact Or.inr (Or.inl ⟨snap', out, a, b, by rw [hlogeq n'.id rfl]; exact c, d, e⟩)
                · exact Or.inr (Or.inr ⟨snap', msg', a, b, by rw [hlogeq n'.id rfl]; exact c,
                    List.mem_append_left _ d, e, f, g⟩)
          · intro id ts' h
            simp only at h
            rw [rlook_rset] at h
            by_cases hcase : sid = id
            · exact hcase ▸ hsid_level
            · rw [if_neg hcase] at h
              exact hKeys id ts' h
          · intro e he
            rcases List.mem_append.mp he with h | h
            · obtain ⟨id, msg', a, b, n', c, snap', d, f, g⟩ := hErrs e h
              exact ⟨id, msg', a, b, n', c, snap', d, f, List.mem_append_left _ g⟩
            · have : e = .nodeErr n.id msg := by simpa using h
              subst this
              exact ⟨n.id, msg, hnid ▸ hsid_level, rfl, n, hnid ▸ hn, snap, hsnap, hrunout,
                List.mem_append_right _ (by simp)⟩
          · intro p hp
            rcases List.mem_append.mp hp with h | h
            · exact hLog p h
            · have : p = (n.id, snap) := by simpa using h
              subst this
              exact hnid ▸ hsid_level
        | ok out =>
          have hstep : taskStep cfg n (.snapped snap) acc.st acc.errs acc.log
              = (.done,
                  { results := rset (if useCacheFor cfg n then { acc.st with cache := rset acc.st.cache n.id out } else acc.st).results n.id out,
                    cache := (if useCacheFor cfg n then { acc.st with cache := rset acc.st.cache n.id out } else acc.st).cache },
                  acc.errs, acc.log ++ [(n.id, snap)]) := by
            simp only [taskStep, hrunout]
          rw [hstep]
          have hcacheEq : (if useCacheFor cfg n then { acc.st with cache := rset acc.st.cache n.id out } else acc.st).cache
              = (if useCacheFor cfg n = true then rset acc.st.cache n.id out else acc.st.cache) := by
            by_cases hu : useCacheFor cfg n
            · simp [hu]
            · simp [hu]
          have hresEq : (if useCacheFor cfg n then { acc.st with cache := rset acc.st.cache n.id out } else acc.st).results
              = acc.st.results := by
            by_cases hu : useCacheFor cfg n
            · simp [hu]
            · simp [hu]
          refine ⟨?_, ?_, ?_, ?_, ?_, ?_, ?_⟩
          · intro id hid
            obtain ⟨ts', n', h1, h2, h3⟩ := hTasks id hid
            by_cases hcase : id = sid
            · subst hcase
              refine ⟨.done, n, by simp [rlook_rset], hn, ?_⟩
              refine Or.inr (Or.inl ⟨snap, out, hsnap, hrunout, ?_, ?_, ?_⟩)
              · simp only
                rw [logFor_append_self, hlogf, List.nil_append]
              · simp only [hresEq]
                rw [rlook_rset_self]
              · by_cases hu : useCacheFor cfg n = true
                · refine Or.inl ⟨hu, hmiss hu, ?_⟩
                  simp only [hcacheEq, if_pos hu]
                  rw [rlook_rset_self]
                · have hu' : useCacheFor cfg n = false := by
                    cases h : useCacheFor cfg n
                    · rfl
                    · exact absurd h hu
                  refine Or.inr ⟨hu', ?_⟩
                  simp only [hcacheEq, hu']
                  simp only [Bool.false_eq_true, if_false]
                  exact hcache
            · have hne' : n.id ≠ n'.id := by
                rw [hnid, (findNode_eq_some h2).2]
                exact fun hc => hcase hc.symm
              refine ⟨ts', n', by rw [rlook_rset_ne _ (fun hc => hcase hc.symm)]; exact h1, h2, ?_⟩
              have hcache' : rlook (if useCacheFor cfg n then { acc.st with cache := rset acc.st.cache n.id out } else acc.st).cache n'.id
                  = rlook acc.st.cache n'.id := by
                by_cases hu : useCacheFor cfg n
                · simp only [if_pos hu]
                  exact rlook_rset_ne _ hne' out
                · simp [hu]
              have hres' : rlook (rset (if useCacheFor cfg n then { acc.st with cache := rset acc.st.cache n.id out } else acc.st).results n.id out) n'.id
                  = rlook acc.st.results n'.id := by
                rw [rlook_rset_ne _ hne', hresEq]
              have hlogeq : logFor (acc.log ++ [(n.id, snap)]) n'.id = logFor acc.log n'.id :=
                logFor_append_ne acc.log hne' snap
              cases ts' with
              | start =>
                obtain ⟨a, b, c⟩ := h3
                exact ⟨by rw [hres']; exact a, by rw [hcache']; exact b, by rw [hlogeq]; exact c⟩
              | ready =>
                obtain ⟨a, b, c, d⟩ := h3
                exact ⟨a, by rw [hres']; exact b, by rw [hcache']; exact c, by rw [hlogeq]; exact d⟩
              | snapped snap' =>
                obtain ⟨a, b, c, d, e⟩ := h3
                exact ⟨a, b, by rw [hres']; exact c, by rw [hcache']; exact d, by rw [hlogeq]; exact e⟩
              | done =>
                rcases h3 with ⟨w, a, b, c, d, e⟩ | ⟨snap', out', a, b, c, d, e⟩ | ⟨snap', msg', a, b, c, d, e, f, g⟩
                · exact Or.inl ⟨w, a, b, by rw [hres']; exact c, by rw [hcache']; exact d, by rw [hlogeq]; exact e⟩
                · refine Or.inr (Or.inl ⟨snap', out', a, b, by rw [hlogeq]; exact c, by rw [hres']; exact d, ?_⟩)
                  rcases e with ⟨e1, e2, e3⟩ | ⟨e1, e2⟩
                  · exact Or.inl ⟨e1, e2, by rw [hcache']; exact e3⟩
                  · exact Or.inr ⟨e1, by rw [hcache']; exact e2⟩
                · exact Or.inr (Or.inr ⟨snap', msg', a, b, by rw [hlogeq]; exact c, d,
                    by rw [hres']; exact e, by rw [hcache']; exact f, g⟩)
          · intro id ts' h
            simp only at h
            rw [rlook_rset] at h
            by_cases hcase : sid = id
            · exact hcase ▸ hsid_level
            · rw [if_neg hcase] at h
              exact hKeys id ts' h
          · intro k hk
            have hkne : n.id ≠ k := fun hc => hk (hc ▸ hnid ▸ hsid_level)
            constructor
            · simp only
              rw [rlook_rset_ne _ hkne, hresEq]
              exact (hFrame k hk).1
            · simp only [hcacheEq]
              by_cases hu : useCacheFor cfg n = true
              · rw [if_pos hu, rlook_rset_ne _ hkne]
                exact (hFrame k hk).2
              · have hu' : useCacheFor cfg n = false := by
                  cases h : useCacheFor cfg n
                  · rfl
                  · exact absurd h hu
                rw [hu']
                simp only [Bool.false_eq_true, if_false]
                exact (hFrame k hk).2
          · intro k v' hkv
            simp only
            by_cases hck : n.id = k
            · subst hck
              rw [hnid, hfr] at hkv
              cases hkv
            · rw [rlook_rset_ne _ hck, hresEq]
              exact hMono k v' hkv
          · intro k hk
            simp only at hk
            by_cases hck : n.id = k
            · exact Or.inr (hck ▸ hnid ▸ hsid_level)
            · rw [rlook_rset_ne _ hck, hresEq] at hk
              exact hDom k hk
          · intro e he
            obtain ⟨id, msg, a, b, n', c, snap', d, f, g⟩ := hErrs e he
            exact ⟨id, msg, a, b, n', c, snap', d, f, List.mem_append_left _ g⟩
          · intro p hp
            rcases List.mem_append.mp hp with h | h
            · exact hLog p h
            · have : p = (n.id, snap) := by simpa using h
              subst this
              exact hnid ▸ hsid_level

theorem rlook_map_start {α : Type} : ∀ (level : List ID) (id : ID),
    rlook (level.map (fun id => (id, (TaskSt.start : TaskSt α)))) id
      = if id ∈ level then some TaskSt.start else none := by
  intro level
  induction level with
  | nil => intro id; simp
  | cons a rest ih =>
    intro id
    simp only [List.map_cons, rlook_cons, List.mem_cons]
    by_cases h : a = id
    · simp [h]
    · rw [if_neg h, ih id]
      by_cases h2 : id ∈ rest
      · simp [h2]
      · have hne : id ≠ a := fun hc => h hc.symm
        simp [h2, hne]

/-- The invariant holds at the start of the level. -/
theorem levelInv_init {α : Type} (cfg : EngCfg) (nodes : List (GNode α)) (st0 : EngSt α)
    (level : List ID)
    (hfound : ∀ id ∈ level, (findNode nodes id).isSome)
    (hfresh : ∀ id ∈ level, rlook st0.results id = none) :
    LevelInv cfg nodes st0 level ⟨level.map (fun id => (id, TaskSt.start)), st0, [], []⟩ := by
  refine ⟨?_, ?_, ?_, ?_, ?_, ?_, ?_⟩
  · intro id hid
    obtain ⟨n, hn⟩ := Option.isSome_iff_exists.mp (hfound id hid)
    refine ⟨.start, n, ?_, hn, ?_⟩
    · rw [rlook_map_start, if_pos hid]
    · exact ⟨(findNode_eq_some hn).2 ▸ hfresh id hid, rfl, rfl⟩
  · intro id ts h
    rw [rlook_map_start] at h
    by_cases hid : id ∈ level
    · exact hid
    · rw [if_neg hid] at h
      cases h
  · intro k _
    exact ⟨rfl, rfl⟩
  · intro k v h
    exact h
  · intro k h
    exact Or.inl h
  · intro e he
    cases he
  · intro p hp
    cases hp

theorem foldl_stepTask_inv {α : Type} {cfg : EngCfg} {nodes : List (GNode α)} {st0 : EngSt α}
    {level : List ID} (hfresh : ∀ id ∈ level, rlook st0.results id = none) :
    ∀ (steps : List ID) {acc : LevelAcc α}, LevelInv cfg nodes st0 level acc →
    LevelInv cfg nodes st0 level (steps.foldl (fun a sid => stepTask cfg nodes sid a) acc) := by
  intro steps
  induction steps with
  | nil => intro acc h; exact h
  | cons s rest ih =>
    intro acc h
    rw [List.foldl_cons]
    exact ih (stepTask_inv hfresh h s)

/-- A completed task stays completed under any further step. -/
theorem done_persists {α : Type} {cfg : EngCfg} {nodes : List (GNode α)} {acc : LevelAcc α}
    {sid : ID} (h : rlook acc.tasks sid = some TaskSt.done) (x : ID) :
    rlook (stepTask cfg nodes x acc).tasks sid = some TaskSt.done := by
  unfold stepTask
  cases hx : rlook acc.tasks x with
  | none => exact h
  | some ts =>
    cases hn : findNode nodes x with
    | none => exact h
    | some n =>
      simp only
      by_cases hcase : x = sid
      · subst hcase
        rw [hx] at h
        cases h
        have : (taskStep cfg n TaskSt.done acc.st acc.errs acc.log).1 = TaskSt.done := rfl
        rw [rlook_rset, if_pos rfl, this]
      · rw [rlook_rset, if_neg hcase]
        exact h

theorem done_persists_foldl {α : Type} {cfg : EngCfg} {nodes : List (GNode α)} {sid : ID} :
    ∀ (steps : List ID) {acc : LevelAcc α}, rlook acc.tasks sid = some TaskSt.done →
    rlook ((steps.foldl (fun a x => stepTask cfg nodes x a) acc)).tasks sid = some TaskSt.done := by
  intro steps
  induction steps with
  | nil => intro acc h; exact h
  | cons s rest ih =>
    intro acc h
    rw [List.foldl_cons]
    exact ih (done_persists h s)

/-- Three consecutive phases complete any task whose id the level
invariant covers. -/
theorem step3_done {α : Type} {cfg : EngCfg} {nodes : List (GNode α)} {st0 : EngSt α}
    {level : List ID} {acc : LevelAcc α} (hInv : LevelInv cfg nodes st0 level acc)
    {sid : ID} (hsid : sid ∈ level) :
    rlook ((stepTask cfg nodes sid (stepTask cfg nodes sid (stepTask cfg nodes sid acc))).tasks) sid
      = some TaskSt.done := by
  obtain ⟨hTasks, -⟩ := hInv
  obtain ⟨ts, n, hts, hn, -⟩ := hTasks sid hsid
  have hstep1 : ∀ (a : LevelAcc α) (ts' : TaskSt α), rlook a.tasks sid = some ts' →
      rlook (stepTask cfg nodes sid a).tasks sid
        = some (taskStep cfg n ts' a.st a.errs a.log).1 := by
    intro a ts' h
    unfold stepTask
    rw [h, hn]
    simp only
    rw [rlook_rset, if_pos rfl]
  -- one phase from each control state
  have hnext : ∀ (ts' : TaskSt α) (st : EngSt α) (errs : List GErr) (log : InvLog α),
      (taskStep cfg n ts' st errs log).1 = TaskSt.done
      ∨ (taskStep cfg n ts' st errs log).1 = TaskSt.ready
      ∨ (∃ snap, (taskStep cfg n ts' st errs log).1 = TaskSt.snapped snap) := by
    intro ts' st errs log
    cases ts' with
    | start =>
      by_cases hu : useCacheFor cfg n
      · cases hc : rlook st.cache n.id with
        | some v =>
          have heq : taskStep cfg n .start st errs log
              = (.done, { st with results := rset st.results n.id v }, errs, log) := by
            simp [taskStep, hu, hc]
          rw [heq]
          exact Or.inl rfl
        | none =>
          have heq : taskStep cfg n .start st errs log = (.ready, st, errs, log) := by
            simp [taskStep, hu, hc]
          rw [heq]
          exact Or.inr (Or.inl rfl)
      · have hu' : useCacheFor cfg n = false := by
          cases h : useCacheFor cfg n
          · rfl
          · exact absurd h hu
        have heq : taskStep cfg n .start st errs log = (.ready, st, errs, log) := by
          simp [taskStep, hu']
        rw [heq]
        exact Or.inr (Or.inl rfl)
    | ready => exact Or.inr (Or.inr ⟨st.results, rfl⟩)
    | snapped snap =>
      cases hr : n.run snap with
      | error msg =>
        have heq : (taskStep cfg n (.snapped snap) st errs log).1 = TaskSt.done := by
          simp [taskStep, hr]
        exact Or.inl heq
      | ok out =>
        have heq : (taskStep cfg n (.snapped snap) st errs log).1 = TaskSt.done := by
          simp [taskStep, hr]
        exact Or.inl heq
    | done => exact Or.inl rfl
  have hready_step : ∀ (st : EngSt α) (errs : List GErr) (log : InvLog α),
      ∃ snap, (taskStep cfg n (TaskSt.ready) st errs log).1 = TaskSt.snapped snap :=
    fun st errs log => ⟨st.results, rfl⟩
  have hsnap_step : ∀ (snap : List (ID × α)) (st : EngSt α) (errs : List GErr) (log : InvLog α),
      (taskStep cfg n (TaskSt.snapped snap) st errs log).1 = TaskSt.done := by
    intro snap st errs log
    cases hr : n.run snap with
    | error msg => simp [taskStep, hr]
    | ok out => simp [taskStep, hr]
  -- chase the three steps
  set a1 := stepTask cfg nodes sid acc with ha1
  set a2 := stepTask cfg nodes sid a1 with ha2
  have h1 := hstep1 acc ts hts
  rcases hnext ts acc.st acc.errs acc.log with hd | hr | ⟨snap, hs⟩
  · -- done after 1 step
    rw [hd] at h1
    exact done_persists (done_persists h1 sid) sid
  · rw [hr] at h1
    have h2 := hstep1 a1 TaskSt.ready h1
    obtain ⟨snap, hsnap⟩ := hready_step a1.st a1.errs a1.log
    rw [hsnap] at h2
    have h3 := hstep1 a2 (TaskSt.snapped snap) h2
    rw [hsnap_step snap a2.st a2.errs a2.log] at h3
    exact h3
  · rw [hs] at h1
    have h2 := hstep1 a1 (TaskSt.snapped snap) h1
    rw [hsnap_step snap a1.st a1.errs a1.log] at h2
    exact done_persists h2 sid

/-- After the flush suffix, every task of the level is completed. -/
theorem flush_all_done {α : Type} {cfg : EngCfg} {nodes : List (GNode α)} {st0 : EngSt α}
    {level : List ID} (hfresh : ∀ id ∈ level, rlook st0.results id = none) :
    ∀ (todo : List ID) {acc : LevelAcc α}, LevelInv cfg nodes st0 level acc →
    (∀ id ∈ todo, id ∈ level) →
    ∀ id ∈ todo,
      rlook ((todo.flatMap (fun id => [id, id, id])).foldl
        (fun a sid => stepTask cfg nodes sid a) acc).tasks id = some TaskSt.done := by
  intro todo
  induction todo with
  | nil => intro acc _ _ id hid; cases hid
  | cons t rest ih =>
    intro acc hInv hsub id hid
    rw [List.flatMap_cons]
    have hsteps : ([t, t, t] ++ rest.flatMap (fun id => [id, id, id])).foldl
        (fun a sid => stepTask cfg nodes sid a) acc
        = (rest.flatMap (fun id => [id, id, id])).foldl (fun a sid => stepTask cfg nodes sid a)
          (stepTask cfg nodes t (stepTask cfg nodes t (stepTask cfg nodes t acc))) := by
      rw [List.foldl_append]
      rfl
    rw [hsteps]
    have hInv3 : LevelInv cfg nodes st0 level
        (stepTask cfg nodes t (stepTask cfg nodes t (stepTask cfg nodes t acc))) :=
      stepTask_inv hfresh (stepTask_inv hfresh (stepTask_inv hfresh hInv t) t) t
    rcases List.mem_cons.mp hid with h | h
    · subst h
      exact done_persists_foldl _ (step3_done hInv (hsub id (List.mem_cons_self id rest)))
    · exact ih hInv3 (fun x hx => hsub x (List.mem_cons_of_mem t hx)) id h

theorem mem_logFor_self {α : Type} {log : InvLog α} {p : ID × List (ID × α)} (hp : p ∈ log) :
    p ∈ logFor log p.1 := by
  unfold logFor
  exact List.mem_filter.mpr ⟨hp, by simp⟩

theorem logFor_eq_nil_of_not_mem {α : Type} {log : InvLog α} {level : List ID}
    (hlog : ∀ p ∈ log, p.1 ∈ level) {id : ID} (hid : id ∉ level) : logFor log id = [] := by
  unfold logFor
  rw [List.filter_eq_nil]
  intro p hp
  simp only [decide_eq_true_eq]
  intro hc
  exact hid (hc ▸ hlog p hp)

/-- Running a level under any schedule satisfies the level summary. -/
theorem runLevelSched_post {α : Type} (cfg : EngCfg) (nodes : List (GNode α)) (st0 : EngSt α)
    (level : List ID) (sched : List ID)
    (hfound : ∀ id ∈ level, (findNode nodes id).isSome)
    (hfresh : ∀ id ∈ level, rlook st0.results id = none) :
    LevelPost cfg nodes st0 level (runLevelSched cfg nodes level sched st0) := by
  have hinit := levelInv_init cfg nodes st0 level hfound hfresh
  have hsplit : runLevelSched cfg nodes level sched st0
      = (level.flatMap (fun id => [id, id, id])).foldl (fun a sid => stepTask cfg nodes sid a)
          (sched.foldl (fun a sid => stepTask cfg nodes sid a)
            ⟨level.map (fun id => (id, TaskSt.start)), st0, [], []⟩) := by
    unfold runLevelSched
    rw [List.foldl_append]
  have hmid := foldl_stepTask_inv hfresh sched hinit
  have hInv : LevelInv cfg nodes st0 level (runLevelSched cfg nodes level sched st0) := by
    rw [hsplit]
    exact foldl_stepTask_inv hfresh _ hmid
  have hdone : ∀ id ∈ level,
      rlook (runLevelSched cfg nodes level sched st0).tasks id = some TaskSt.done := by
    rw [hsplit]
    exact flush_all_done hfresh level hmid (fun _ h => h)
  obtain ⟨hTasks, hKeys, hFrame, hMono, hDom, hErrs, hLog⟩ := hInv
  have houtcome : ∀ id ∈ level, ∃ n, findNode nodes id = some n
      ∧ TaskOk cfg st0 level n TaskSt.done (runLevelSched cfg nodes level sched st0).st
        (runLevelSched cfg nodes level sched st0).errs
        (runLevelSched cfg nodes level sched st0).log := by
    intro id hid
    obtain ⟨ts, n, h1, h2, h3⟩ := hTasks id hid
    rw [hdone id hid] at h1
    cases h1
    exact ⟨n, h2, h3⟩
  refine ⟨houtcome, hFrame, hMono, hDom, hErrs, hLog, ?_⟩
  intro id
  by_cases hid : id ∈ level
  · obtain ⟨n, hn, hok⟩ := houtcome id hid
    have hnid : n.id = id := (findNode_eq_some hn).2
    rcases hok with ⟨v, -, -, -, -, hlf⟩ | ⟨snap, out, -, -, hlf, -⟩ | ⟨snap, msg, -, -, hlf, -⟩
    · rw [hnid] at hlf
      rw [hlf]
      simp
    · rw [hnid] at hlf
      rw [hlf]
      simp
    · rw [hnid] at hlf
      rw [hlf]
      simp
  · rw [logFor_eq_nil_of_not_mem hLog hid]
    simp

/-- A log entry records a real invocation: the outcome of the node's
function on the logged snapshot is reflected in the level's final
state. -/
theorem LevelPost.invOutcome {α : Type} {cfg : EngCfg} {nodes : List (GNode α)} {st0 : EngSt α}
    {level : List ID} {acc : LevelAcc α} (hp : LevelPost cfg nodes st0 level acc)
    {p : ID × List (ID × α)} (hmem : p ∈ acc.log) :
    ∃ n, findNode nodes p.1 = some n ∧ snapBound st0 level p.2
    ∧ ((∃ out, n.run p.2 = .ok out ∧ rlook acc.st.results p.1 = some out
          ∧ (useCacheFor cfg n = true → rlook acc.st.cache p.1 = some out)
          ∧ (useCacheFor cfg n = false → rlook acc.st.cache p.1 = rlook st0.cache p.1))
       ∨ (∃ msg, n.run p.2 = .error msg ∧ GErr.nodeErr p.1 msg ∈ acc.errs
            ∧ rlook acc.st.results p.1 = none
            ∧ rlook acc.st.cache p.1 = rlook st0.cache p.1)) := by
  have hlev : p.1 ∈ level := hp.logLevel p hmem
  obtain ⟨n, hn, hok⟩ := hp.outcome p.1 hlev
  have hnid : n.id = p.1 := (findNode_eq_some hn).2
  have hpin : p ∈ logFor acc.log p.1 := mem_logFor_self hmem
  rcases hok with ⟨v, -, -, -, -, hlf⟩ | ⟨snap, out, hsb, hrun, hlf, hres, hcache⟩
    | ⟨snap, msg, hsb, hrun, hlf, herr, hres, hcache, -⟩
  · rw [hnid] at hlf
    rw [hlf] at hpin
    cases hpin
  · rw [hnid] at hlf
    rw [hlf] at hpin
    have hpeq : p = (n.id, snap) := by rw [hnid]; simpa using hpin
    refine ⟨n, hn, ?_, Or.inl ⟨out, ?_, ?_, ?_, ?_⟩⟩
    · rw [hpeq]; exact hsb
    · rw [hpeq]; exact hrun
    · rw [← hnid]; exact hres
    · intro hu
      rcases hcache with ⟨-, -, hc⟩ | ⟨hfalse, -⟩
      · rw [← hnid]; exact hc
      · rw [hu] at hfalse; cases hfalse
    · intro hu
      rcases hcache with ⟨htrue, -, -⟩ | ⟨-, hc⟩
      · rw [hu] at htrue; cases htrue
      · rw [← hnid]; exact hc
  · rw [hnid] at hlf
    rw [hlf] at hpin
    have hpeq : p = (n.id, snap) := by rw [hnid]; simpa using hpin
    refine ⟨n, hn, ?_, Or.inr ⟨msg, ?_, ?_, ?_, ?_⟩⟩
    · rw [hpeq]; exact hsb
    · rw [hpeq]; exact hrun
    · rw [hpeq]; simpa using herr
    · rw [← hnid]; exact hres
    · rw [← hnid]; exact hcache

/-- When a usable cache already holds a value for a node, its level
records exactly that cached value, never invokes it, and leaves the
cache entry as it was. -/
theorem LevelPost.hitCase {α : Type} {cfg : EngCfg} {nodes : List (GNode α)} {st0 : EngSt α}
    {level : List ID} {acc : LevelAcc α} (hp : LevelPost cfg nodes st0 level acc)
    {id : ID} (hid : id ∈ level) {n : GNode α} (hn : findNode nodes id = some n)
    (hu : useCacheFor cfg n = true) {v : α} (hv : rlook st0.cache id = some v) :
    rlook acc.st.results id = some v ∧ rlook acc.st.cache id = some v
    ∧ logFor acc.log id = [] := by
  obtain ⟨n', hn', hok⟩ := hp.outcome id hid
  rw [hn] at hn'
  cases hn'
  have hnid : n.id = id := (findNode_eq_some hn).2
  rw [← hnid] at hv
  rcases hok with ⟨v', hu', hv', hres, hcache, hlf⟩ | ⟨snap, out, -, -, -, -, hcache⟩
    | ⟨snap, msg, -, -, -, -, -, -, hmiss⟩
  · rw [hv'] at hv
    cases hv
    exact ⟨hnid ▸ hres, hnid ▸ hcache, hnid ▸ hlf⟩
  · rcases hcache with ⟨-, hmiss, -⟩ | ⟨hfalse, -⟩
    · rw [hmiss] at hv
      cases hv
    · rw [hu] at hfalse
      cases hfalse
  · rw [hmiss hu] at hv
    cases hv

/-- An error-free level commits a result for every one of its nodes. -/
theorem LevelPost.complete {α : Type} {cfg : EngCfg} {nodes : List (GNode α)} {st0 : EngSt α}
    {level : List ID} {acc : LevelAcc α} (hp : LevelPost cfg nodes st0 level acc)
    (herrs : acc.errs = []) : ∀ id ∈ level, ∃ v, rlook acc.st.results id = some v := by
  intro id hid
  obtain ⟨n, hn, hok⟩ := hp.outcome id hid
  have hnid : n.id = id := (findNode_eq_some hn).2
  rcases hok with ⟨v, -, -, hres, -⟩ | ⟨snap, out, -, -, -, hres, -⟩
    | ⟨snap, msg, -, -, -, herr, -⟩
  · exact ⟨v, hnid ▸ hres⟩
  · exact ⟨out, hnid ▸ hres⟩
  · rw [herrs] at herr
    cases herr

theorem logFor_append {α : Type} (a b : InvLog α) (id : ID) :
    logFor (a ++ b) id = logFor a id ++ logFor b id := by
  unfold logFor
  rw [List.filter_append]

theorem head?_mem {β : Type} {l : List β} {e : β} (h : l.head? = some e) : e ∈ l := by
  cases l with
  | nil => cases h
  | cons a rest =>
    have : a = e := by simpa using h
    exact this ▸ List.mem_cons_self a rest

theorem head?_none {β : Type} {l : List β} (h : l.head? = none) : l = [] := by
  cases l with
  | nil => rfl
  | cons a rest => cases h

theorem runLevels_spec {α : Type} (cfg : EngCfg) (nodes : List (GNode α))
    (cancelled : Nat → Bool) (scheds : Nat → List ID) :
    ∀ (rem : List (List ID)) (i : Nat) (st : EngSt α) (log0 : InvLog α),
    rem.join.Nodup →
    (∀ id ∈ rem.join, (findNode nodes id).isSome) →
    (∀ id ∈ rem.join, rlook st.results id = none) →
    ∃ res st' tail, runLevels cfg nodes cancelled scheds rem i st log0 = (res, st', log0 ++ tail)
      ∧ RunLevelsOut cfg nodes cancelled rem i st res st' tail := by
  intro rem
  induction rem with
  | nil =>
    intro i st log0 _ _ _
    refine ⟨.ok (), st, [], by simp [runLevels], ?_⟩
    refine ⟨?_, ?_, ?_, ?_, ?_, ?_, ?_, ?_, ?_, ?_, ?_⟩
    · intro p hp; cases hp
    · intro id; simp [logFor]
    · intro p hp; cases hp
    · intro _ id hid; simp at hid
    · intro id hid; simp at hid
    · intro _
      refine ⟨?_, ?_⟩
      · intro id hid; simp at hid
      · intro j hj; simp at hj
    · intro k _; exact ⟨rfl, rfl⟩
    · intro k v h; exact h
    · intro k h; exact Or.inl h
    · intro e he; cases he
    · intro _ j _ p hp; cases hp
  | cons level rest ih =>
    intro i st log0 hjoinN hfound hfresh
    have hjoin_eq : (level :: rest).join = level ++ rest.join := by simp
    have hlevN : level.Nodup := by
      rw [hjoin_eq] at hjoinN
      exact (List.nodup_append.mp hjoinN).1
    have hrestN : rest.join.Nodup := by
      rw [hjoin_eq] at hjoinN
      exact (List.nodup_append.mp hjoinN).2.1
    have hdisj : ∀ x ∈ level, x ∉ rest.join := by
      rw [hjoin_eq] at hjoinN
      exact fun x hx => (List.nodup_append.mp hjoinN).2.2 hx
    have hfound_lev : ∀ id ∈ level, (findNode nodes id).isSome := by
      intro id hid
      exact hfound id (by rw [hjoin_eq]; exact List.mem_append_left _ hid)
    have hfresh_lev : ∀ id ∈ level, rlook st.results id = none := by
      intro id hid
      exact hfresh id (by rw [hjoin_eq]; exact List.mem_append_left _ hid)
    by_cases hcan : cancelled i = true
    · -- cancellation observed at the top of this level
      refine ⟨.error .cancelled, st, [], by simp [runLevels, hcan], ?_⟩
      refine ⟨?_, ?_, ?_, ?_, ?_, ?_, ?_, ?_, ?_, ?_, ?_⟩
      · intro p hp; cases hp
      · intro id; simp [logFor]
      · intro p hp; cases hp
      · intro h; cases h
      · intro id hid n hn hu v hv
        exact ⟨by simp [logFor], by intro h; cases h⟩
      · intro h; cases h
      · intro k _; exact ⟨rfl, rfl⟩
      · intro k v h; exact h
      · intro k h; exact Or.inl h
      · intro e he
        have : e = .cancelled := by
          have := congrArg (fun r : Except GErr Unit =>
            match r with | .error e' => some e' | .ok _ => none) he
          simpa using this.symm
        subst this
        refine ⟨0, by omega, ?_, Or.inl ⟨rfl, by simp, by simpa using hcan, ?_⟩⟩
        · intro m hm hlt; omega
        · intro p hp; cases hp
      · intro _ j _ p hp; cases hp
    · have hcan' : cancelled i = false := by
        cases h : cancelled i
        · rfl
        · exact absurd h hcan
      have hp := runLevelSched_post cfg nodes st level (scheds i) hfound_lev hfresh_lev
      set acc := runLevelSched cfg nodes level (scheds i) st with hacc
      cases herr : acc.errs.head? with
      | some e =>
        have hrun : runLevels cfg nodes cancelled scheds (level :: rest) i st log0
            = (.error e, acc.st, log0 ++ acc.log) := by
          simp only [runLevels, hcan', if_false, Bool.false_eq_true]
          rw [← hacc, herr]
        have hemem : e ∈ acc.errs := head?_mem herr
        refine ⟨.error e, acc.st, acc.log, hrun, ?_⟩
        obtain ⟨g0, m0, hg0, he0, ng0, hng0, snapg0, hsbg0, hrg0, hlogg0⟩ := hp.errShape e hemem
        refine ⟨?_, hp.logOnce, ?_, ?_, ?_, ?_, ?_, hp.mono, ?_, ?_, ?_⟩
        · intro p hpp
          rw [hjoin_eq]
          exact List.mem_append_left _ (hp.logLevel p hpp)
        · intro p hpp
          obtain ⟨n, hn, hsb, hout⟩ := hp.invOutcome hpp
          refine ⟨n, hn, ?_⟩
          rcases hout with ⟨out, h1, h2, h3, h4⟩ | ⟨msg, h1, h2, h3, h4⟩
          · exact Or.inl ⟨out, h1, h2, h3, h4⟩
          · refine Or.inr ⟨msg, h1, ⟨g0, m0, by rw [he0], (g0, snapg0), ng0, hlogg0, rfl, hng0, hrg0⟩, h3, h4⟩
        · intro h; cases h
        · intro id hid n hn hu v hv
          rw [hjoin_eq] at hid
          rcases List.mem_append.mp hid with hidl | hidr
          · obtain ⟨-, -, hlf⟩ := hp.hitCase hidl hn hu hv
            exact ⟨hlf, by intro h; cases h⟩
          · refine ⟨logFor_eq_nil_of_not_mem hp.logLevel ?_, by intro h; cases h⟩
            intro hc
            exact hdisj id hc hidr
        · intro h; cases h
        · intro k hk
          rw [hjoin_eq] at hk
          exact hp.frame k (fun hc => hk (List.mem_append_left _ hc))
        · intro k hk
          rcases hp.dom k hk with h | h
          · exact Or.inl h
          · exact Or.inr (by rw [hjoin_eq]; exact List.mem_append_left _ h)
        · intro e' he'
          have : e' = e := by
            have := congrArg (fun r : Except GErr Unit =>
              match r with | .error x => some x | .ok _ => none) he'
            simpa using this.symm
          subst this
          obtain ⟨g, msg, hg, hee, n, hn, snap, hsb, hrun', hlog⟩ := hp.errShape e' hemem
          refine ⟨0, by omega, ?_, Or.inr ⟨by simp, g, msg, hee, by simpa using hg,
            ⟨snap, n, hlog, hn, hrun'⟩, ?_⟩⟩
          · intro m hm hlt; omega
          · intro p hpp
            have : (List.take 1 (level :: rest)).join = level := by simp
            rw [this]
            exact hp.logLevel p hpp
        · intro hmono j hc p hpp
          match j with
          | 0 =>
            rw [Nat.add_zero] at hc
            rw [hc] at hcan'
            cases hcan'
          | j' + 1 =>
            have : level ⊆ (List.take (j' + 1) (level :: rest)).join := by
              simp only [List.take_succ_cons]
              intro x hx
              simp only [List.join_cons]
              exact List.mem_append_left _ hx
            exact this (hp.logLevel p hpp)
      | none =>
        have herrs : acc.errs = [] := head?_none herr
        have hfresh' : ∀ id ∈ rest.join, rlook acc.st.results id = none := by
          intro id hid
          have hnl : id ∉ level := fun hc => hdisj id hc hid
          rw [(hp.frame id hnl).1]
          exact hfresh id (by rw [hjoin_eq]; exact List.mem_append_right _ hid)
        have hfound' : ∀ id ∈ rest.join, (findNode nodes id).isSome := by
          intro id hid
          exact hfound id (by rw [hjoin_eq]; exact List.mem_append_right _ hid)
        obtain ⟨res, st', tail', hrun', out'⟩ := ih (i + 1) acc.st (log0 ++ acc.log)
          hrestN hfound' hfresh'
        have hrun : runLevels cfg nodes cancelled scheds (level :: rest) i st log0
            = (res, st', log0 ++ (acc.log ++ tail')) := by
          simp only [runLevels, hcan', if_false, Bool.false_eq_true]
          rw [← hacc, herr, hrun']
          rw [List.append_assoc]
        have hlev_frame : ∀ k ∈ level, rlook st'.results k = rlook acc.st.results k
            ∧ rlook st'.cache k = rlook acc.st.cache k := by
          intro k hk
          exact out'.frame k (fun hc => hdisj k hk hc)
        refine ⟨res, st', acc.log ++ tail', hrun, ?_⟩
        refine ⟨?_, ?_, ?_, ?_, ?_, ?_, ?_, ?_, ?_, ?_, ?_⟩
        · intro p hpp
          rw [hjoin_eq]
          rcases List.mem_append.mp hpp with h | h
          · exact List.mem_append_left _ (hp.logLevel p h)
          · exact List.mem_append_right _ (out'.logIds p h)
        · intro id
          rw [logFor_append]
          by_cases hid : id ∈ level
          · have h2 : logFor tail' id = [] := by
              unfold logFor
              rw [List.filter_eq_nil]
              intro p hpp
              simp only [decide_eq_true_eq]
              intro hc
              exact hdisj id hid (hc ▸ out'.logIds p hpp)
            rw [h2, List.append_nil]
            exact hp.logOnce id
          · have h1 : logFor acc.log id = [] := logFor_eq_nil_of_not_mem hp.logLevel hid
            rw [h1, List.nil_append]
            exact out'.logOnce id
        · intro p hpp
          rcases List.mem_append.mp hpp with h | h
          · obtain ⟨n, hn, hsb, hout⟩ := hp.invOutcome h
            have hpl : p.1 ∈ level := hp.logLevel p h
            have hnr : p.1 ∉ rest.join := fun hc => hdisj p.1 hpl hc
            refine ⟨n, hn, ?_⟩
            rcases hout with ⟨out, h1, h2, h3, h4⟩ | ⟨msg, h1, h2, h3, h4⟩
            · refine Or.inl ⟨out, h1, out'.mono _ _ h2, ?_, ?_⟩
              · intro hu
                rw [(out'.frame p.1 hnr).2]
                exact h3 hu
              · intro hu
                rw [(out'.frame p.1 hnr).2]
                exact h4 hu
            · rw [herrs] at h2
              cases h2
          · obtain ⟨n, hn, hout⟩ := out'.invOut p h
            have hpr : p.1 ∈ rest.join := out'.logIds p h
            have hnl : p.1 ∉ level := fun hc => hdisj p.1 hc hpr
            refine ⟨n, hn, ?_⟩
            rcases hout with ⟨out, h1, h2, h3, h4⟩ | ⟨msg, h1, h2, h3, h4⟩
            · refine Or.inl ⟨out, h1, h2, h3, ?_⟩
              intro hu
              rw [h4 hu, (hp.frame p.1 hnl).2]
            · obtain ⟨g, m', hres', q, ng, hq, hq1, hng, hngr⟩ := h2
              refine Or.inr ⟨msg, h1, ⟨g, m', hres', q, ng, List.mem_append_right _ hq, hq1, hng, hngr⟩, h3, ?_⟩
              rw [h4, (hp.frame p.1 hnl).2]
        · intro hok id hid n hn hu hnone
          rw [hjoin_eq] at hid
          rcases List.mem_append.mp hid with hidl | hidr
          · obtain ⟨n', hn', hok'⟩ := hp.outcome id hidl
            rw [hn] at hn'
            cases hn'
            have hnid : n.id = id := (findNode_eq_some hn).2
            rcases hok' with ⟨v, -, hv, -, -, -⟩ | ⟨snap, out, -, hrun'', hlf, hres'', hcache''⟩
              | ⟨snap, msg, -, -, -, herr'', -, -, -⟩
            · rw [hnid, hnone] at hv
              cases hv
            · have hmem' : (n.id, snap) ∈ acc.log := by
                have hin : (n.id, snap) ∈ logFor acc.log n.id := by rw [hlf]; simp
                exact List.mem_of_mem_filter hin
              have hnr : id ∉ rest.join := fun hc => hdisj id hidl hc
              refine ⟨snap, out, List.mem_append_left _ (hnid ▸ hmem'), hrun'', ?_, ?_⟩
              · exact out'.mono _ _ (hnid ▸ hres'')
              · rcases hcache'' with ⟨-, -, hco⟩ | ⟨hfalse, -⟩
                · rw [(out'.frame id hnr).2]
                  exact hnid ▸ hco
                · rw [hu] at hfalse
                  cases hfalse
            · rw [herrs] at herr''
              cases herr''
          · have hnl : id ∉ level := fun hc => hdisj id hc hidr
            have hnone' : rlook acc.st.cache id = none := by
              rw [(hp.frame id hnl).2]
              exact hnone
            obtain ⟨snap, out, hmem', hrun'', hres'', hcache''⟩ :=
              out'.missExec hok id hidr n hn hu hnone'
            exact ⟨snap, out, List.mem_append_right _ hmem', hrun'', hres'', hcache''⟩
        · intro id hid n hn hu v hv
          rw [hjoin_eq] at hid
          rcases List.mem_append.mp hid with hidl | hidr
          · obtain ⟨hres, hcache, hlf⟩ := hp.hitCase hidl hn hu hv
            have h2 : logFor tail' id = [] := by
              unfold logFor
              rw [List.filter_eq_nil]
              intro p hpp
              simp only [decide_eq_true_eq]
              intro hc
              exact hdisj id hidl (hc ▸ out'.logIds p hpp)
            refine ⟨by rw [logFor_append, hlf, h2]; rfl, ?_⟩
            intro hok
            have hnr : id ∉ rest.join := fun hc => hdisj id hidl hc
            refine ⟨out'.mono _ _ hres, ?_⟩
            rw [(out'.frame id hnr).2]
            exact hcache
          · have hnl : id ∉ level := fun hc => hdisj id hc hidr
            have hv' : rlook acc.st.cache id = some v := by
              rw [(hp.frame id hnl).2]
              exact hv
            obtain ⟨hlf', hok'⟩ := out'.hitSkip id hidr n hn hu v hv'
            refine ⟨by rw [logFor_append, hlf', logFor_eq_nil_of_not_mem hp.logLevel hnl]; rfl, hok'⟩
        · intro hok
          obtain ⟨hres', hcan''⟩ := out'.okComplete hok
          refine ⟨?_, ?_⟩
          · intro id hid
            rw [hjoin_eq] at hid
            rcases List.mem_append.mp hid with h | h
            · obtain ⟨v, hv⟩ := hp.complete herrs id h
              exact ⟨v, out'.mono _ _ hv⟩
            · exact hres' id h
          · intro j hj
            match j with
            | 0 => rw [Nat.add_zero]; exact hcan'
            | j' + 1 =>
              have : i + (j' + 1) = (i + 1) + j' := by omega
              rw [this]
              exact hcan'' j' (by simpa using hj)
        · intro k hk
          rw [hjoin_eq] at hk
          have h1 : k ∉ level := fun hc => hk (List.mem_append_left _ hc)
          have h2 : k ∉ rest.join := fun hc => hk (List.mem_append_right _ hc)
          obtain ⟨ha, hb⟩ := hp.frame k h1
          obtain ⟨hc', hd⟩ := out'.frame k h2
          exact ⟨by rw [hc', ha], by rw [hd, hb]⟩
        · intro k v h
          exact out'.mono _ _ (hp.mono _ _ h)
        · intro k h
          rcases out'.dom k h with h' | h'
          · rcases hp.dom k h' with h'' | h''
            · exact Or.inl h''
            · exact Or.inr (by rw [hjoin_eq]; exact List.mem_append_left _ h'')
          · exact Or.inr (by rw [hjoin_eq]; exact List.mem_append_right _ h')
        · intro e he
          obtain ⟨j', hj'le, hcompl, hcase⟩ := out'.errAt e he
          refine ⟨j' + 1, by simpa using hj'le, ?_, ?_⟩
          · intro m hm hlt id hid
            match m, hm, hid with
            | 0, hm, hid =>
              obtain ⟨v, hv⟩ := hp.complete herrs id (by simpa using hid)
              exact ⟨v, out'.mono _ _ hv⟩
            | m' + 1, hm, hid =>
              exact hcompl m' (by simpa using hm) (by omega) id (by simpa using hid)
          · rcases hcase with ⟨he', hjlt, hcj, hsub⟩ | ⟨hj, g, m', hee, hgmem, hwit, hsub⟩
            · refine Or.inl ⟨he', by simpa using hjlt, by
                have : i + (j' + 1) = (i + 1) + j' := by omega
                rw [this]
                exact hcj, ?_⟩
              intro p hpp
              simp only [List.take_succ_cons, List.join_cons]
              rcases List.mem_append.mp hpp with h | h
              · exact List.mem_append_left _ (hp.logLevel p h)
              · exact List.mem_append_right _ (hsub p h)
            · refine Or.inr ⟨by simpa using hj, g, m', hee, by simpa using hgmem, ?_, ?_⟩
              · obtain ⟨snap, n, hmem, hn, hr⟩ := hwit
                exact ⟨snap, n, List.mem_append_right _ hmem, hn, hr⟩
              · intro p hpp
                simp only [List.take_succ_cons, List.join_cons]
                rcases List.mem_append.mp hpp with h | h
                · exact List.mem_append_left _ (hp.logLevel p h)
                · exact List.mem_append_right _ (hsub p h)
        · intro hmono j hc p hpp
          match j with
          | 0 =>
            rw [Nat.add_zero] at hc
            rw [hc] at hcan'
            cases hcan'
          | j' + 1 =>
            have hcj : cancelled ((i + 1) + j') = true := by
              have : (i + 1) + j' = i + (j' + 1) := by omega
              rw [this]
              exact hc
            simp only [List.take_succ_cons, List.join_cons]
            rcases List.mem_append.mp hpp with h | h
            · exact List.mem_append_left _ (hp.logLevel p h)
            · exact List.mem_append_right _ (out'.cancelBound hmono j' hcj p h)

/-- Top-level case split for a whole engine run on a closed node set
with distinct ids: either scheduling succeeds and the run satisfies
`RunLevelsOut` for the computed levels, or the dependency relation is
cyclic and the run stops with a cycle error and no side effects. -/
theorem runSched_spec {α : Type} (cfg : EngCfg) {nodes : List (GNode α)}
    (cancelled : Nat → Bool) (scheds : Nat → List ID) (cache0 : List (ID × α))
    (hN : (idsOf nodes).Nodup)
    (hC : ∀ n ∈ nodes, ∀ d ∈ n.dependsOn, d ∈ idsOf nodes) :
    (∃ levels res st' tail, topoSortLevels nodes = .ok levels
      ∧ (levels.join).Nodup
      ∧ (∀ x, x ∈ levels.join ↔ x ∈ idsOf nodes)
      ∧ LevelsOrdered nodes levels
      ∧ runSched cfg nodes cancelled scheds cache0 = (res, st', tail)
      ∧ RunLevelsOut cfg nodes cancelled levels 0 ⟨[], cache0⟩ res st' tail)
    ∨ (topoSortLevels nodes = .error .cycle
      ∧ runSched cfg nodes cancelled scheds cache0 = (.error .cycle, ⟨[], cache0⟩, [])) := by
  rcases topoSort_cases hN hC with ⟨levels, htopo, hnodup, hmem, -, hord, -⟩ | ⟨htopo, -⟩
  · left
    obtain ⟨res, st', tail, hrun, hout⟩ :=
      runLevels_spec cfg nodes cancelled scheds levels 0 ⟨[], cache0⟩ [] hnodup
        (fun id hid => (findNode_isSome_iff nodes id).mpr ((hmem id).mp hid))
        (fun id _ => rfl)
    refine ⟨levels, res, st', tail, htopo, hnodup, hmem, hord, ?_, hout⟩
    unfold runSched
    rw [htopo]
    simp only
    rw [hrun]
    simp
  · right
    refine ⟨htopo, ?_⟩
    unfold runSched
    rw [htopo]

theorem count_map_fst {α : Type} (tail : InvLog α) (id : ID) :
    (tail.map Prod.fst).count id = (logFor tail id).length := by
  induction tail with
  | nil => rfl
  | cons p rest ih =>
    rw [List.map_cons]
    unfold logFor
    rw [List.filter_cons]
    unfold logFor at ih
    by_cases h : p.1 = id
    · rw [if_pos (by simpa using h), List.length_cons, h, List.count_cons_self]
      omega
    · rw [if_neg (by simpa using h), List.count_cons_of_ne (fun hc => h hc.symm)]
      exact ih

/-! ## The claims -/
/-- C2: for every finite node set whose dependency identifiers all exist
in the set, the level scheduler succeeds if and only if the induced
dependency relation is acyclic; on success every node of the set appears
in exactly one level (so the sum of level sizes equals the node count)
and every dependency of a node lies in a strictly earlier level; if the
relation contains a self-loop or any longer cycle it fails with a
generic cycle error and returns zero levels (the error carries no level
list). -/
theorem claim_C2 {α : Type} (nodes : List (GNode α))
    (hN : (idsOf nodes).Nodup)
    (hC : ∀ n ∈ nodes, ∀ d ∈ n.dependsOn, d ∈ idsOf nodes) :
    ((∃ levels, topoSortLevels nodes = .ok levels)
      ↔ (∀ z, ¬ Relation.TransGen (depEdge nodes) z z))
    ∧ (∀ levels, topoSortLevels nodes = .ok levels →
        (levels.join).Nodup
        ∧ (∀ x, x ∈ levels.join ↔ x ∈ idsOf nodes)
        ∧ (levels.map List.length).sum = nodes.length
        ∧ LevelsOrdered nodes levels)
    ∧ ((∃ z, Relation.TransGen (depEdge nodes) z z) → topoSortLevels nodes = .error .cycle) := by
  rcases topoSort_cases hN hC with ⟨levels, htopo, h1, h2, h3, h4, h5⟩ | ⟨htopo, z, hz⟩
  · refine ⟨⟨fun _ => h5, fun _ => ⟨levels, htopo⟩⟩, ?_, ?_⟩
    · intro levels' hl
      rw [htopo] at hl
      cases hl
      exact ⟨h1, h2, h3, h4⟩
    · rintro ⟨z, hz⟩
      exact absurd hz (h5 z)
  · refine ⟨⟨?_, ?_⟩, ?_, fun _ => htopo⟩
    · rintro ⟨levels, hl⟩
      rw [htopo] at hl
      cases hl
    · intro hac
      exact absurd hz (hac z)
    · intro levels hl
      rw [htopo] at hl
      cases hl

/-- Witness for C2 on the spec's diamond: the scheduler partitions the
four nodes into dependency-respecting levels. -/
theorem claim_C2_witness :
    ([["a"], ["b", "c"], ["d"]].join).Nodup
    ∧ (∀ x, x ∈ [["a"], ["b", "c"], ["d"]].join ↔ x ∈ idsOf diamondNodes)
    ∧ ([["a"], ["b", "c"], ["d"]].map List.length).sum = diamondNodes.length
    ∧ LevelsOrdered diamondNodes [["a"], ["b", "c"], ["d"]] :=
  (claim_C2 diamondNodes (by decide) (by decide)).2.1 [["a"], ["b", "c"], ["d"]] rfl

/-- C5: for every catalog and target list whose reachable identifiers
all exist, subgraph resolution returns exactly the targets plus their
transitive dependencies, independent of target ordering and with
duplicate targets collapsed; on reaching an identifier absent from the
catalog it fails with an `unknown node` error naming that identifier;
the input catalog is a pure value and is never mutated. -/
theorem claim_C5 {α : Type} (registry : List (GNode α)) (targets : List ID)
    (hN : (idsOf registry).Nodup) :
    (∀ r, resolveSubgraph registry targets = .ok r →
      (∀ n ∈ r, n ∈ registry)
      ∧ (∀ x, x ∈ idsOf r ↔ ReachesFrom registry targets x)
      ∧ (∀ targets', (∀ t, t ∈ targets' ↔ t ∈ targets) →
          ∃ r', resolveSubgraph registry targets' = .ok r'
            ∧ ∀ x, x ∈ idsOf r' ↔ x ∈ idsOf r))
    ∧ ((∀ x, ReachesFrom registry targets x → x ∈ idsOf registry) →
        ∃ r, resolveSubgraph registry targets = .ok r)
    ∧ (∀ e, resolveSubgraph registry targets = .error e →
        ∃ m, e = .unknownNode m ∧ ReachesFrom registry targets m ∧ m ∉ idsOf registry) := by
  have hok_of_closed : ∀ (ts : List ID), (∀ x, ReachesFrom registry ts x → x ∈ idsOf registry) →
      ∃ r, resolveSubgraph registry ts = .ok r := by
    intro ts hcl
    rcases resolveSubgraph_total registry ts with ⟨r, hr⟩ | ⟨m, hm, hreach, hnot⟩
    · exact ⟨r, hr⟩
    · exact absurd (hcl m hreach) hnot
  refine ⟨?_, hok_of_closed targets, fun e he => resolveTargets_error_shape he⟩
  intro r hr
  obtain ⟨hsub, hchar⟩ := resolveSubgraph_ok_char hN hr
  refine ⟨hsub, hchar, ?_⟩
  intro targets' hts
  have hreach_iff : ∀ x, ReachesFrom registry targets' x ↔ ReachesFrom registry targets x := by
    intro x
    unfold ReachesFrom
    constructor
    · rintro ⟨t, ht, hx⟩
      exact ⟨t, (hts t).mp ht, hx⟩
    · rintro ⟨t, ht, hx⟩
      exact ⟨t, (hts t).mpr ht, hx⟩
  obtain ⟨r', hr'⟩ := hok_of_closed targets' (by
    intro x hx
    have : x ∈ idsOf r := (hchar x).mpr ((hreach_iff x).mp hx)
    obtain ⟨n, hn, hid⟩ := List.mem_map.mp this
    exact hid ▸ List.mem_map_of_mem GNode.id (hsub n hn))
  obtain ⟨-, hchar'⟩ := resolveSubgraph_ok_char hN hr'
  refine ⟨r', hr', ?_⟩
  intro x
  rw [hchar' x, hreach_iff x, hchar x]

/-- Witness for C5 on the spec's example: resolving `{d, e}` (in either
order) produces exactly `{a, b, c, d, e}`. -/
theorem claim_C5_witness :
    (∀ n ∈ [wnode "d" ["b", "c"] 4, wnode "b" ["a"] 2, wnode "a" [] 1,
        wnode "c" ["a"] 3, wnode "e" [] 5], n ∈ diamondCatalog)
    ∧ (∀ x, x ∈ idsOf [wnode "d" ["b", "c"] 4, wnode "b" ["a"] 2, wnode "a" [] 1,
        wnode "c" ["a"] 3, wnode "e" [] 5] ↔ ReachesFrom diamondCatalog ["d", "e"] x)
    ∧ (∀ targets', (∀ t, t ∈ targets' ↔ t ∈ ["d", "e"]) →
        ∃ r', resolveSubgraph diamondCatalog targets' = .ok r'
          ∧ ∀ x, x ∈ idsOf r' ↔ x ∈ idsOf [wnode "d" ["b", "c"] 4, wnode "b" ["a"] 2,
              wnode "a" [] 1, wnode "c" ["a"] 3, wnode "e" [] 5]) :=
  (claim_C5 diamondCatalog ["d", "e"] (by decide)).1
    [wnode "d" ["b", "c"] 4, wnode "b" ["a"] 2, wnode "a" [] 1, wnode "c" ["a"] 3,
      wnode "e" [] 5]
    (by simp [resolveSubgraph, resolveTargets, resolveAux, resolveDeps, findNode,
      diamondCatalog, wnode])

/-- C10: subgraph resolution terminates normally on every finite
catalog and target list -- the embedding's recursion fuel is never
exhausted and no cycle error can arise from the resolver -- so a cyclic
catalog resolves normally and the only possible failure is an
`unknown node` error. -/
theorem claim_C10 {α : Type} (registry : List (GNode α)) (targets : List ID) :
    resolveSubgraph registry targets ≠ .error .fuelEx
    ∧ resolveSubgraph registry targets ≠ .error .cycle
    ∧ ((∃ r, resolveSubgraph registry targets = .ok r)
        ∨ (∃ m, resolveSubgraph registry targets = .error (.unknownNode m))) := by
  rcases resolveSubgraph_total registry targets with ⟨r, hr⟩ | ⟨m, hm, -, -⟩
  · exact ⟨by simp [hr], by simp [hr], Or.inl ⟨r, hr⟩⟩
  · exact ⟨by simp [hm], by simp [hm], Or.inr ⟨m, hm⟩⟩

/-- C7: a node subset containing a dependency reference to an absent
identifier makes the whole run fail with an `unknown dependency` error
naming a node and its missing dependency, before anything executes: the
results map stays empty, the cache is untouched and no payload function
is invoked. -/
theorem claim_C7 {α : Type} (cfg : EngCfg) (nodes : List (GNode α))
    (cancelled : Nat → Bool) (scheds : Nat → List ID) (cache0 : List (ID × α))
    (n₀ : GNode α) (hmem : n₀ ∈ nodes) (d₀ : ID) (hd : d₀ ∈ n₀.dependsOn)
    (hmiss : d₀ ∉ idsOf nodes) :
    ∃ g m, runSched cfg nodes cancelled scheds cache0
        = (.error (.unknownDep g m), ⟨[], cache0⟩, [])
      ∧ (∃ n ∈ nodes, n.id = g ∧ m ∈ n.dependsOn ∧ m ∉ idsOf nodes) := by
  cases hfm : firstMissingDep nodes nodes with
  | none => exact absurd hfm (firstMissingDep_isSome hmem hd hmiss)
  | some gm =>
    obtain ⟨g, m⟩ := gm
    obtain ⟨n, hn, hgid, hmdep, hmnot⟩ := firstMissingDep_some hfm
    have htopo : topoSortLevels nodes = .error (.unknownDep g m) := by
      unfold topoSortLevels
      rw [hfm]
    refine ⟨g, m, ?_, ⟨n, hn, hgid, hmdep, hmnot⟩⟩
    unfold runSched
    rw [htopo]

/-- Witness for C7: a node depending on the unregistered identifier
`z` fails with the unknown-dependency error and zero side effects. -/
theorem claim_C7_witness :
    ∃ g m, runSched ⟨false, []⟩ [wnode "a" ["z"] 1] (fun _ => false) (fun _ => [])
        ([] : List (ID × Nat)) = (.error (.unknownDep g m), ⟨[], []⟩, [])
      ∧ (∃ n ∈ [wnode "a" ["z"] 1], n.id = g ∧ m ∈ n.dependsOn ∧ m ∉ idsOf [wnode "a" ["z"] 1]) :=
  claim_C7 ⟨false, []⟩ [wnode "a" ["z"] 1] (fun _ => false) (fun _ => []) []
    (wnode "a" ["z"] 1) (List.mem_singleton_self _) "z" (by decide) (by decide)

/-- C1: bypassing the cache for a cacheable node under a warm cache does
force re-execution, but -- against the claim and `IgnoreCache`'s own
documentation -- the freshly computed value is NOT written back to the
cache: `useCache` gates `cache.Set` as well as `cache.Get`, so after the
run the cache still holds the stale value `1` instead of the fresh `2`. -/
theorem claim_C1 :
    bypassRun.1 = .ok ()
    ∧ bypassRun.2.2.map Prod.fst = ["counter"]
    ∧ rlook bypassRun.2.1.results "counter" = some 2
    ∧ rlook bypassRun.2.1.cache "counter" = some 1
    ∧ rlook bypassRun.2.1.cache "counter" ≠ some 2 :=
  ⟨rfl, rfl, rfl, rfl, by decide⟩

/-- C3: in every run each node's payload function is invoked at most
once; a cacheable node with a usable cache hit is never invoked and the
cached value becomes its result; and two successive runs sharing one
warm cache invoke such a node exactly once in total, both observing the
same output. -/
theorem claim_C3 {α : Type} (cfg : EngCfg) (nodes : List (GNode α))
    (cancelled : Nat → Bool) (scheds : Nat → List ID) (cache0 : List (ID × α))
    (hN : (idsOf nodes).Nodup)
    (hC : ∀ n ∈ nodes, ∀ d ∈ n.dependsOn, d ∈ idsOf nodes)
    {res : Except GErr Unit} {st' : EngSt α} {tail : InvLog α}
    (hrun : runSched cfg nodes cancelled scheds cache0 = (res, st', tail)) :
    (∀ id, (tail.map Prod.fst).count id ≤ 1)
    ∧ (∀ id n v, findNode nodes id = some n → useCacheFor cfg n = true →
        rlook cache0 id = some v →
        (∀ p ∈ tail, p.1 ≠ id) ∧ (res = .ok () → rlook st'.results id = some v))
    ∧ (∀ (cancelled₂ : Nat → Bool) (scheds₂ : Nat → List ID) res₂ st₂ tail₂,
        runSched cfg nodes cancelled₂ scheds₂ st'.cache = (res₂, st₂, tail₂) →
        res = .ok () → res₂ = .ok () →
        ∀ id n, findNode nodes id = some n → useCacheFor cfg n = true →
        rlook cache0 id = none →
        (tail.map Prod.fst).count id + (tail₂.map Prod.fst).count id = 1
        ∧ rlook st₂.results id = rlook st'.results id
        ∧ (rlook st'.results id).isSome) := by
  rcases runSched_spec cfg cancelled scheds cache0 hN hC with
    ⟨levels, res0, st0', tail0, htopo, hnodup, hmem, hord, hrun0, out⟩ | ⟨htopo, hrunc⟩
  · rw [hrun] at hrun0
    have h1 : res = res0 := congrArg Prod.fst hrun0
    have h2 : st' = st0' := congrArg (fun t => t.2.1) hrun0
    have h3 : tail = tail0 := congrArg (fun t => t.2.2) hrun0
    subst h1; subst h2; subst h3
    have hjoin_of_find : ∀ id (n : GNode α), findNode nodes id = some n → id ∈ levels.join := by
      intro id n hn
      exact (hmem id).mpr ((findNode_isSome_iff nodes id).mp (by simp [hn]))
    refine ⟨?_, ?_, ?_⟩
    · intro id
      rw [count_map_fst]
      exact out.logOnce id
    · intro id n v hn hu hv
      obtain ⟨hlf, hok⟩ := out.hitSkip id (hjoin_of_find id n hn) n hn hu v hv
      refine ⟨?_, fun h => (hok h).1⟩
      intro p hp hc
      have : p ∈ logFor tail id := by
        unfold logFor
        exact List.mem_filter.mpr ⟨hp, by simp [hc]⟩
      rw [hlf] at this
      cases this
    · intro cancelled₂ scheds₂ res₂ st₂ tail₂ hrun₂ hok₁ hok₂ id n hn hu hnone
      obtain ⟨snap, out1, hmem1, hrunok, hres1, hcache1⟩ :=
        out.missExec hok₁ id ((hmem id).mpr ((findNode_isSome_iff nodes id).mp (by simp [hn])))
          n hn hu hnone
      rcases runSched_spec cfg cancelled₂ scheds₂ st'.cache hN hC with
        ⟨levels₂, res₂', st₂', tail₂', htopo₂, -, hmem₂, -, hrun₂0, out₂⟩ | ⟨htopo₂, -⟩
      · rw [hrun₂] at hrun₂0
        have g1 : res₂ = res₂' := congrArg Prod.fst hrun₂0
        have g2 : st₂ = st₂' := congrArg (fun t => t.2.1) hrun₂0
        have g3 : tail₂ = tail₂' := congrArg (fun t => t.2.2) hrun₂0
        subst g1; subst g2; subst g3
        obtain ⟨hlf₂, hok₂'⟩ := out₂.hitSkip id
          ((hmem₂ id).mpr ((findNode_isSome_iff nodes id).mp (by simp [hn])))
          n hn hu out1 hcache1
        have hcount1 : (tail.map Prod.fst).count id = 1 := by
          have hle := out.logOnce id
          have hge : 1 ≤ (logFor tail id).length := by
            have : (id, snap) ∈ logFor tail id := mem_logFor_self hmem1
            exact List.length_pos.mpr (fun hc => by rw [hc] at this; cases this)
          rw [count_map_fst]
          omega
        have hcount2 : (tail₂.map Prod.fst).count id = 0 := by
          rw [count_map_fst, hlf₂]
          rfl
        obtain ⟨hres₂, -⟩ := hok₂' hok₂
        refine ⟨by omega, ?_, ?_⟩
        · rw [hres₂, hres1]
        · rw [hres1]
          rfl
      · rw [htopo] at htopo₂
        cases htopo₂
  · rw [hrun] at hrunc
    have h1 : res = .error .cycle := congrArg Prod.fst hrunc
    have h3 : tail = [] := congrArg (fun t => t.2.2) hrunc
    subst h1; subst h3
    refine ⟨?_, ?_, ?_⟩
    · intro id; simp
    · intro id n v hn hu hv
      exact ⟨fun p hp => absurd hp (List.not_mem_nil p), fun h => by cases h⟩
    · intro cancelled₂ scheds₂ res₂ st₂ tail₂ hrun₂ hok₁
      cases hok₁

/-- Witness for C3: a cacheable node run twice via two executions
sharing one warm cache is invoked exactly once in total. -/
theorem claim_C3_witness :
    ((runSched ⟨true, []⟩ [counterNode] (fun _ => false) (fun _ => [])
        ([] : List (ID × Nat))).2.2.map Prod.fst).count "counter"
      + (((runSched ⟨true, []⟩ [counterNode] (fun _ => false) (fun _ => [])
          (runSched ⟨true, []⟩ [counterNode] (fun _ => false) (fun _ => [])
            ([] : List (ID × Nat))).2.1.cache).2.2).map Prod.fst).count "counter" = 1 :=
  ((claim_C3 ⟨true, []⟩ [counterNode] (fun _ => false) (fun _ => []) []
      (by decide) (by decide) rfl).2.2
    (fun _ => false) (fun _ => []) _ _ _ rfl rfl rfl "counter" counterNode rfl rfl rfl).1

/-- C4: when a run fails with a node error, the failing node sits in
some level `j` of the schedule, every node of each fully completed
earlier level still has a committed result after the run returns, and
every node of the failing level whose payload succeeded keeps its
committed result -- nothing is rolled back. -/
theorem claim_C4 {α : Type} (cfg : EngCfg) (nodes : List (GNode α))
    (cancelled : Nat → Bool) (scheds : Nat → List ID) (cache0 : List (ID × α))
    (hN : (idsOf nodes).Nodup)
    (hC : ∀ n ∈ nodes, ∀ d ∈ n.dependsOn, d ∈ idsOf nodes)
    (g : ID) (m : String)
    {st' : EngSt α} {tail : InvLog α}
    (hrun : runSched cfg nodes cancelled scheds cache0 = (.error (.nodeErr g m), st', tail)) :
    ∃ levels j, topoSortLevels nodes = .ok levels
      ∧ ∃ hj : j < levels.length, g ∈ levels.get ⟨j, hj⟩
        ∧ (∀ k, ∀ hk : k < levels.length, k < j →
            ∀ id ∈ levels.get ⟨k, hk⟩, ∃ v, rlook st'.results id = some v)
        ∧ (∀ p ∈ tail, ∀ n out, findNode nodes p.1 = some n → n.run p.2 = .ok out →
            rlook st'.results p.1 = some out) := by
  rcases runSched_spec cfg cancelled scheds cache0 hN hC with
    ⟨levels, res0, st0', tail0, htopo, hnodup, hmem, hord, hrun0, out⟩ | ⟨htopo0, hrunc⟩
  · rw [hrun] at hrun0
    have h1 : Except.error (GErr.nodeErr g m) = res0 := congrArg Prod.fst hrun0
    have h2 : st' = st0' := congrArg (fun t => t.2.1) hrun0
    have h3 : tail = tail0 := congrArg (fun t => t.2.2) hrun0
    subst h1; subst h2; subst h3
    obtain ⟨j, hjle, hcompl, hdisj⟩ := out.errAt (GErr.nodeErr g m) rfl
    rcases hdisj with ⟨he, -, -, -⟩ | ⟨hj, g', m', he, hg, -, -⟩
    · simp at he
    · injection he with hg' hm'
      subst hg'
      refine ⟨levels, j, htopo, hj, hg, hcompl, ?_⟩
      intro p hp n nout hn hok
      obtain ⟨n₁, hn₁, hcase⟩ := out.invOut p hp
      rw [hn] at hn₁
      injection hn₁ with hn₁'
      subst hn₁'
      rcases hcase with ⟨out1, hro, hres, -, -⟩ | ⟨msg, hre, -, -, -⟩
      · rw [hok] at hro
        injection hro with ho
        rw [ho]
        exact hres
      · rw [hok] at hre
        cases hre
  · rw [hrun] at hrunc
    have h1 : Except.error (GErr.nodeErr g m) = Except.error GErr.cycle :=
      congrArg Prod.fst hrunc
    injection h1 with h1'
    simp at h1'

/-- Witness for C4: a failing second level leaves the first level's
committed result queryable. -/
theorem claim_C4_witness :
    ∃ levels j, topoSortLevels [wnode "a" [] 7, failNode] = .ok levels
      ∧ ∃ hj : j < levels.length, "f" ∈ levels.get ⟨j, hj⟩
        ∧ (∀ k, ∀ hk : k < levels.length, k < j →
            ∀ id ∈ levels.get ⟨k, hk⟩, ∃ v, rlook failRun.2.1.results id = some v)
        ∧ (∀ p ∈ failRun.2.2, ∀ n out,
            findNode [wnode "a" [] 7, failNode] p.1 = some n → n.run p.2 = .ok out →
            rlook failRun.2.1.results p.1 = some out) :=
  claim_C4 ⟨false, []⟩ [wnode "a" [] 7, failNode] (fun _ => false) (fun _ => []) []
    (by decide) (by decide) "f" "boom" rfl

/-- C6: when a node's payload fails during a run, no result is recorded
for that node, its cache entry is untouched, and the run surfaces a
failure wrapping some failing node's identifier. -/
theorem claim_C6 {α : Type} (cfg : EngCfg) (nodes : List (GNode α))
    (cancelled : Nat → Bool) (scheds : Nat → List ID) (cache0 : List (ID × α))
    (hN : (idsOf nodes).Nodup)
    (hC : ∀ n ∈ nodes, ∀ d ∈ n.dependsOn, d ∈ idsOf nodes)
    {res : Except GErr Unit} {st' : EngSt α} {tail : InvLog α}
    (hrun : runSched cfg nodes cancelled scheds cache0 = (res, st', tail))
    (f : ID) (n : GNode α) (hn : findNode nodes f = some n)
    (snap : List (ID × α)) (msg : String)
    (hinv : (f, snap) ∈ tail) (hfail : n.run snap = .error msg) :
    rlook st'.results f = none
    ∧ rlook st'.cache f = rlook cache0 f
    ∧ ∃ g m', res = .error (.nodeErr g m')
        ∧ ∃ q ng, q ∈ tail ∧ q.1 = g ∧ findNode nodes g = some ng ∧ ng.run q.2 = .error m' := by
  rcases runSched_spec cfg cancelled scheds cache0 hN hC with
    ⟨levels, res0, st0', tail0, htopo, hnodup, hmem, hord, hrun0, out⟩ | ⟨htopo0, hrunc⟩
  · rw [hrun] at hrun0
    have h1 : res = res0 := congrArg Prod.fst hrun0
    have h2 : st' = st0' := congrArg (fun t => t.2.1) hrun0
    have h3 : tail = tail0 := congrArg (fun t => t.2.2) hrun0
    subst h1; subst h2; subst h3
    obtain ⟨n₁, hn₁, hcase⟩ := out.invOut (f, snap) hinv
    have hn₁' : findNode nodes f = some n₁ := hn₁
    rw [hn] at hn₁'
    injection hn₁' with he
    subst he
    rcases hcase with ⟨out1, hro, -, -, -⟩ | ⟨msg', hre, hglob, hresnone, hcache⟩
    · have hro' : n.run snap = .ok out1 := hro
      rw [hfail] at hro'
      cases hro'
    · have hres' : rlook st'.results f = none := hresnone
      have hcache' : rlook st'.cache f = rlook cache0 f := hcache
      exact ⟨hres', hcache', hglob⟩
  · rw [hrun] at hrunc
    have h3 : tail = [] := congrArg (fun t => t.2.2) hrunc
    rw [h3] at hinv
    cases hinv

/-- Witness for C6: the failing node `f` has no recorded result, its
cache entry is untouched, and the run's error wraps a failing node. -/
theorem claim_C6_witness :
    rlook failRun.2.1.results "f" = none
    ∧ rlook failRun.2.1.cache "f" = rlook ([] : List (ID × Nat)) "f"
    ∧ ∃ g m', failRun.1 = .error (.nodeErr g m')
        ∧ ∃ q ng, q ∈ failRun.2.2 ∧ q.1 = g ∧ findNode [wnode "a" [] 7, failNode] g = some ng
          ∧ ng.run q.2 = .error m' :=
  claim_C6 ⟨false, []⟩ [wnode "a" [] 7, failNode] (fun _ => false) (fun _ => []) []
    (by decide) (by decide) rfl "f" failNode rfl [("a", 7)] "boom" (by decide) rfl

theorem mem_drop_join_of_mem_get {β : Type} (l : List (List β)) (i : Nat) (hi : i < l.length)
    {x : β} (hx : x ∈ l.get ⟨i, hi⟩) : x ∈ (l.drop i).join := by
  induction l generalizing i with
  | nil => cases hi
  | cons a rest ih =>
    cases i with
    | zero =>
      simp only [List.drop_zero]
      exact List.mem_join.mpr ⟨a, List.mem_cons_self _ _, by simpa using hx⟩
    | succ i' =>
      have hi' : i' < rest.length := by simpa using hi
      have hres := ih i' hi' (by simpa using hx)
      simpa using hres

theorem take_join_disjoint_drop_join {β : Type} (l : List (List β)) (h : l.join.Nodup)
    (i : Nat) {x : β} (hx : x ∈ (l.take i).join) : x ∉ (l.drop i).join := by
  have hsplit : l.join = (l.take i).join ++ (l.drop i).join := by
    rw [← List.join_append, List.take_append_drop]
  rw [hsplit] at h
  exact (List.nodup_append.mp h).2.2 hx

/-- C8: once the monotone cancellation signal is observed at the top of
level `i`, every logged invocation belongs to a level strictly before
`i`, no node of level `i` (or later) is ever invoked, the run cannot
succeed, and -- when no payload failed -- the run returns the
cancellation failure. -/
theorem claim_C8 {α : Type} (cfg : EngCfg) (nodes : List (GNode α))
    (cancelled : Nat → Bool) (scheds : Nat → List ID) (cache0 : List (ID × α))
    (hN : (idsOf nodes).Nodup)
    (hC : ∀ n ∈ nodes, ∀ d ∈ n.dependsOn, d ∈ idsOf nodes)
    (hmono : ∀ a, cancelled a = true → cancelled (a + 1) = true)
    {levels : List (List ID)} (htopo : topoSortLevels nodes = .ok levels)
    (i : Nat) (hi : cancelled i = true) (hilt : i < levels.length)
    {res : Except GErr Unit} {st' : EngSt α} {tail : InvLog α}
    (hrun : runSched cfg nodes cancelled scheds cache0 = (res, st', tail)) :
    (∀ p ∈ tail, p.1 ∈ (levels.take i).join)
    ∧ (∀ id ∈ levels.get ⟨i, hilt⟩, ∀ p ∈ tail, p.1 ≠ id)
    ∧ res ≠ .ok ()
    ∧ ((∀ p ∈ tail, ∀ n msg, findNode nodes p.1 = some n → n.run p.2 ≠ .error msg) →
        res = .error .cancelled) := by
  rcases runSched_spec cfg cancelled scheds cache0 hN hC with
    ⟨levels0, res0, st0', tail0, htopo0, hnodup, hmem, hord, hrun0, out⟩ | ⟨htopo0, hrunc⟩
  · rw [htopo] at htopo0
    injection htopo0 with hlev
    subst hlev
    rw [hrun] at hrun0
    have h1 : res = res0 := congrArg Prod.fst hrun0
    have h2 : st' = st0' := congrArg (fun t => t.2.1) hrun0
    have h3 : tail = tail0 := congrArg (fun t => t.2.2) hrun0
    subst h1; subst h2; subst h3
    have hztail : ∀ p ∈ tail, p.1 ∈ (levels.take i).join := by
      intro p hp
      exact out.cancelBound hmono i (by rw [Nat.zero_add]; exact hi) p hp
    refine ⟨hztail, ?_, ?_, ?_⟩
    · intro id hid p hp hc
      have hpid : p.1 ∈ levels.get ⟨i, hilt⟩ := by rw [hc]; exact hid
      exact take_join_disjoint_drop_join levels hnodup i (hztail p hp)
        (mem_drop_join_of_mem_get levels i hilt hpid)
    · intro h
      have hfalse := (out.okComplete h).2 i hilt
      rw [Nat.zero_add] at hfalse
      rw [hfalse] at hi
      simp at hi
    · intro hnofail
      cases hres : res with
      | ok u =>
        cases u
        have hfalse := (out.okComplete hres).2 i hilt
        rw [Nat.zero_add] at hfalse
        rw [hfalse] at hi
        simp at hi
      | error e =>
        obtain ⟨j, hjle, hcompl, hdisj⟩ := out.errAt e hres
        rcases hdisj with ⟨he, -, -, -⟩ | ⟨hj, g, m', he, hg, ⟨snap, n, hmemt, hfind, hrunerr⟩, -⟩
        · rw [he]
        · exact absurd hrunerr (hnofail (g, snap) hmemt n m' hfind)
  · rw [htopo] at htopo0
    cases htopo0

/-- Witness for C8: with cancellation raised from level 1 on, the
two-level run returns the cancellation failure. -/
theorem claim_C8_witness :
    (runSched ⟨false, []⟩ [wnode "a" [] 7, wnode "b" ["a"] 8]
        (fun a => decide (1 ≤ a)) (fun _ => []) ([] : List (ID × Nat))).1
      = .error .cancelled :=
  (claim_C8 ⟨false, []⟩ [wnode "a" [] 7, wnode "b" ["a"] 8] (fun a => decide (1 ≤ a))
      (fun _ => []) [] (by decide) (by decide)
      (fun a h => by simp only [decide_eq_true_eq] at h ⊢; omega)
      rfl 1 rfl (by decide) rfl).2.2.2
    (by
      intro p hp n msg hfind
      have hpl : p ∈ [("a", ([] : List (ID × Nat)))] := hp
      have hp' : p = ("a", ([] : List (ID × Nat))) := by simpa using hpl
      subst hp'
      have h2 : some (wnode "a" [] 7) = some n := hfind
      cases h2
      intro hc
      simp [wnode] at hc)

/-- C9 counterexample: `a` and `b` are scheduled in the same level, no
result for `a` is committed before the level begins, yet in the
interleaving where `a`'s task completes before `b`'s task takes its
snapshot, `b` is invoked with a snapshot that already contains the
sibling result `a ↦ 7` -- so a snapshot is not limited to the results
committed before the node's level began. -/
theorem claim_C9_cex :
    topoSortLevels [snapA, snapB] = .ok [["a", "b"]]
    ∧ ("b", [("a", (7 : Nat))]) ∈ (runSched ⟨false, []⟩ [snapA, snapB] (fun _ => false)
        (fun _ => []) []).2.2
    ∧ rlook ([] : List (ID × Nat)) "a" = none
    ∧ rlook [("a", (7 : Nat))] "a" = some 7 :=
  ⟨rfl, by decide, rfl, rfl⟩

/-- C9 (amended): the snapshot passed to an executing node's payload
always contains every result committed before the node's level began,
and contains nothing else except possibly results committed by sibling
nodes of that same level before the snapshot was taken. -/
theorem claim_C9 {α : Type} (cfg : EngCfg) (nodes : List (GNode α)) (level : List ID)
    (sched : List ID) (st0 : EngSt α)
    (hfound : ∀ id ∈ level, (findNode nodes id).isSome)
    (hfresh : ∀ id ∈ level, rlook st0.results id = none) :
    ∀ p ∈ (runLevelSched cfg nodes level sched st0).log,
      (∀ k v, rlook st0.results k = some v → rlook p.2 k = some v)
      ∧ (∀ k, (rlook p.2 k).isSome → (rlook st0.results k).isSome ∨ k ∈ level) := by
  intro p hp
  have post := runLevelSched_post cfg nodes st0 level sched hfound hfresh
  have hlev : p.1 ∈ level := post.logLevel p hp
  obtain ⟨n, hn, hok⟩ := post.outcome p.1 hlev
  have hnid : n.id = p.1 := (findNode_eq_some hn).2
  have hpmem : p ∈ logFor (runLevelSched cfg nodes level sched st0).log n.id := by
    rw [hnid]
    exact mem_logFor_self hp
  rcases hok with ⟨v, -, -, -, -, hlf⟩ | ⟨snap, o, hsb, -, hlf, -, -⟩
    | ⟨snap, msg, hsb, -, hlf, -, -, -, -⟩
  · rw [hlf] at hpmem
    cases hpmem
  · rw [hlf] at hpmem
    have hpeq : p = (n.id, snap) := by simpa using hpmem
    rw [hpeq]
    exact hsb
  · rw [hlf] at hpmem
    have hpeq : p = (n.id, snap) := by simpa using hpmem
    rw [hpeq]
    exact hsb

/-- Witness for C9: in the sibling-observation run, `b`'s snapshot is
still bounded: everything in it was committed either before the level
(nothing was) or by a node of the level itself. -/
theorem claim_C9_witness :
    ("b", [("a", (7 : Nat))]) ∈ (runLevelSched ⟨false, []⟩ [snapA, snapB] ["a", "b"] []
        ⟨[], []⟩).log
    ∧ ((rlook (⟨[], []⟩ : EngSt Nat).results "a").isSome ∨ "a" ∈ ["a", "b"]) :=
  ⟨by decide, (claim_C9 ⟨false, []⟩ [snapA, snapB] ["a", "b"] [] ⟨[], []⟩ (by decide)
      (by decide) ("b", [("a", 7)]) (by decide)).2 "a" (by decide)⟩

end Graft
